import Mathlib

/-
  Verification of the multi-agent task orchestration design described in
  spec.md against the sampled sources of the repository.

  The repository sources under src/ are crewai client scripts: they declare
  agents, tasks, schemas and crews, and call kickoff.  The orchestration
  engine itself (Task Graph build, Scheduler, Memory Store, Output
  Validator, rate limiter) lives in the external crewai library and is not
  part of the sources; those components are modelled here from the spec
  (each such definition carries a doc comment starting with
  Modelled from the spec).  Concrete data that does appear in the sources
  (the Content schema, the agents and tasks of the blog crew and of the
  marketing crew, their max_iter and max_rpm values) is embedded directly
  from the source files.
-/

namespace Crew

/-! ## Structured schemas and the Output Validator (spec section 4.4) -/

/-- Field types admitted by a structured schema: spec 4.4 says a schema
declares named fields with primitive or list-of-string types. -/
inductive FieldType
  | string
  | listOfString
  deriving DecidableEq, Repr

/-- A structured JSON-like value, as produced by the Capability Provider.
The num constructor exists so that a mistyped field is expressible. -/
inductive JsonValue
  | str (s : String)
  | strList (l : List String)
  | num (n : Int)
  deriving DecidableEq, Repr

/-- One named field of a structured schema, with required flag and
description metadata (spec 4.4: per-field required/description metadata). -/
structure SchemaField where
  name : String
  ftype : FieldType
  required : Bool
  descr : String
  deriving DecidableEq, Repr

/-- A structured schema is an ordered list of named fields. -/
abbrev StructuredSchema := List SchemaField

/-- A structured value: an ordered association of field names to values. -/
abbrev JsonObject := List (String × JsonValue)

/-- The error of the Output Validator: spec 4.4,
validate fails with SchemaViolation(field, reason). -/
structure SchemaViolation where
  field : String
  reason : String
  deriving DecidableEq, Repr

/-- Look up a field by name in a structured value. -/
def lookupField (obj : JsonObject) (n : String) : Option JsonValue :=
  (obj.find? (fun kv => kv.1 == n)).map (fun kv => kv.2)

/-- Structural type check of a value against a declared field type. -/
def typeMatches : JsonValue → FieldType → Bool
  | .str _, .string => true
  | .strList _, .listOfString => true
  | _, _ => false

/-- Modelled from the spec: the Output Validator is crewai library code not
present under src/.  Spec 4.4: validation is structural (field presence +
type); this scans the schema and reports the first violated field. -/
def firstViolation (obj : JsonObject) : StructuredSchema → Option SchemaViolation
  | [] => none
  | f :: fs =>
    match lookupField obj f.name with
    | none =>
      if f.required then some ⟨f.name, "missing required field"⟩
      else firstViolation obj fs
    | some v =>
      if typeMatches v f.ftype then firstViolation obj fs
      else some ⟨f.name, "field has wrong type"⟩

/-- Modelled from the spec: contract of the Output Validator (spec 4.4),
validate(raw_output, schema) returns the structured value, or fails with
SchemaViolation(field, reason). -/
def validate (obj : JsonObject) (schema : StructuredSchema) :
    Except SchemaViolation JsonObject :=
  match firstViolation obj schema with
  | none => .ok obj
  | some sv => .error sv

/-- A single field of a schema is satisfied by a structured value: if the
field is absent it must not be required, if present it must have the
declared type. -/
def fieldOkB (obj : JsonObject) (f : SchemaField) : Bool :=
  match lookupField obj f.name with
  | none => !f.required
  | some v => typeMatches v f.ftype

/-- Boolean conformance of a structured value to a schema: every required
field is present, and every present field has its declared type. -/
def conformsB (obj : JsonObject) (schema : StructuredSchema) : Bool :=
  schema.all (fieldOkB obj)

/-- The Content output schema, embedded from the pydantic model Content in
src/4_marketing-crew-usecase/crew.py lines 23-28.  Field(...) in pydantic
declares the field required. -/
def contentSchema : StructuredSchema :=
  [ ⟨"content_type", .string, true, "The type of content (blog, post, video, etc.)"⟩,
    ⟨"topic", .string, true, "The main topic of the content"⟩,
    ⟨"target_audience", .string, true, "Audience to target"⟩,
    ⟨"tags", .listOfString, true, "Relevant tags for the content"⟩,
    ⟨"content", .string, true, "The actual content body"⟩ ]

/-! ## Memory Store (spec sections 3 and 4.3) -/

/-- Memory scopes, spec section 3: ShortTerm or LongTerm. -/
inductive MemScope
  | shortTerm
  | longTerm
  deriving DecidableEq, Repr

/-- A Memory Entry, spec section 3:
scope, content, produced_by, created_at. -/
structure MemEntry where
  scope : MemScope
  content : String
  produced_by : String
  created_at : Nat
  deriving DecidableEq, Repr

/-- Modelled from the spec: the Memory Store is crewai library code not
present under src/.  Spec 4.3: remember(entry); memory is additive-only,
so remember appends. -/
def remember (store : List MemEntry) (e : MemEntry) : List MemEntry :=
  store ++ [e]

/-- Most similar entry to the query among best :: es under the similarity
function sim; on ties the earlier element of the scanned list is kept. -/
def bestEntry (sim : String → String → Nat) (q : String) :
    MemEntry → List MemEntry → MemEntry
  | best, [] => best
  | best, e :: es =>
    bestEntry sim q (if sim q best.content < sim q e.content then e else best) es

/-- Repeated selection of the most similar entry: returns up to k entries by
descending similarity.  The scanned list is ordered most recent first, so
among equally similar entries the most recent wins. -/
def recallAux (sim : String → String → Nat) (q : String) :
    Nat → List MemEntry → List MemEntry
  | 0, _ => []
  | _ + 1, [] => []
  | k + 1, e :: es =>
    let b := bestEntry sim q e es
    b :: recallAux sim q k ((e :: es).erase b)

/-- Modelled from the spec: recall(query, scope, k) of the Memory Store
(spec 4.3) is crewai library code not present under src/.  It is a top-k
nearest-neighbor query under the injected similarity function, restricted
to the requested scope, ordered by descending similarity.  Named recallMem
because recall is a reserved word in this Lean environment. -/
def recallMem (sim : String → String → Nat) (store : List MemEntry)
    (q : String) (scope : MemScope) (k : Nat) : List MemEntry :=
  recallAux sim q k ((store.filter (fun e => e.scope == scope)).reverse)

/-! ## Per-agent rate limiter (spec sections 4.2 step 3 and 5) -/

/-- Modelled from the spec: the rate limiter is crewai library code not
present under src/.  Sliding-window token acquisition: hist lists the times
of previous grants for the agent, most recent first (the scheduler issues
dispatches one at a time, so hist is kept sorted descending).  If fewer
than N grants exist, the request is granted now; otherwise it is granted no
earlier than 60 time units after the N-th most recent grant, so that at
most N dispatches fall in any window of length 60. -/
def grantTime (N : Nat) (hist : List Nat) (now : Nat) : Nat :=
  match hist.drop (N - 1) with
  | [] => now
  | d :: _ => max now (d + 60)

/-- The time at which a request arriving at a is actually issued: not
before the previous grant, since the scheduler dispatches one blocking call
at a time (spec section 5). -/
def nowOf (a : Nat) (hist : List Nat) : Nat :=
  match hist with
  | [] => a
  | g :: _ => max a g

/-- Modelled from the spec: sequential issuance of dispatch requests through
the rate limiter.  Each arrival is processed after the previous grant (the
dispatch is a blocking call, spec section 5), and the grant time is
recorded in the history. -/
def runLimiter (N : Nat) : List Nat → List Nat → List Nat
  | _, [] => []
  | hist, a :: as =>
    let g := grantTime N hist (nowOf a hist)
    g :: runLimiter N (g :: hist) as

/-- A list of times in chronologically descending order (most recent
first). -/
def SortedDesc (l : List Nat) : Prop := List.Chain' (fun a b => b ≤ a) l

/-- In a most-recent-first list of grant times, every grant is at least 60
time units after the grant N positions older: at most N grants fall in any
window of length 60. -/
def SpacedDesc (N : Nat) (l : List Nat) : Prop :=
  ∀ i x y, l.get? i = some x → l.get? (i + N) = some y → y + 60 ≤ x

/-! ## Agent and Task data model (spec section 3) -/

/-- Per-agent policy knobs, spec section 3.  max_iterations is optional
because only some of the sampled agents set max_iter. -/
structure AgentPolicy where
  max_iterations : Option Nat
  max_requests_per_minute : Option Nat
  allow_delegation : Bool
  inject_current_date : Bool
  deriving DecidableEq, Repr

/-- An agent definition, spec section 3: id, role, goal, backstory and
policy knobs.  The capability set is out of scope (spec section 6). -/
structure Agent where
  id : String
  role : String
  goal : String
  backstory : String
  policy : AgentPolicy
  deriving DecidableEq, Repr

/-- A task node, spec section 3: id, description template, expected output,
assigned agent reference, ordered dependencies and optional output schema.
Runtime status is kept by the Scheduler, not in the node. -/
structure TaskNode where
  id : String
  description : String
  expected_output : String
  assigned_agent : String
  dependencies : List String
  output_schema : Option StructuredSchema
  deriving DecidableEq, Repr

/-- Task status, spec section 3. -/
inductive Status
  | Pending
  | Running
  | Succeeded
  | Failed
  deriving DecidableEq, Repr

/-- Build-time errors, spec section 7: CycleError and
DanglingReferenceError. -/
inductive BuildError
  | CycleError
  | DanglingReferenceError
  deriving DecidableEq, Repr

/-! ## Task Graph build and topological order (spec section 4.1) -/

/-- A task is ready relative to a list of already placed (or succeeded)
task ids when every declared dependency is among them. -/
def readyB (placedIds : List String) (t : TaskNode) : Bool :=
  t.dependencies.all (fun d => placedIds.contains d)

/-- An order of tasks is dependency-consistent when, scanning it left to
right with the accumulator seen of ids already passed, every dependency of
every task is among the ids passed before it. -/
def topoConsistent (seen : List String) : List TaskNode → Bool
  | [] => true
  | t :: ts =>
    t.dependencies.all (fun d => seen.contains d) && topoConsistent (t.id :: seen) ts

/-- A valid topological order of a task list: a permutation of the tasks in
which every dependency of every task appears earlier. -/
def ValidTopo (tasks order : List TaskNode) : Prop :=
  order.Perm tasks ∧ topoConsistent [] order = true

/-- Dependency edge: t depends on u. -/
def DependsOn (t u : TaskNode) : Prop :=
  u.id ∈ t.dependencies

instance : DecidableRel DependsOn := fun t u =>
  inferInstanceAs (Decidable (u.id ∈ t.dependencies))

/-- A dependency cycle inside a task list: a task t together with a chain
of dependency edges t to rest to t again (rest may be empty, giving a self
loop), all of whose members belong to the task list. -/
def HasDepCycle (tasks : List TaskNode) : Prop :=
  ∃ t rest, (∀ x ∈ t :: rest, x ∈ tasks) ∧ List.Chain DependsOn t (rest ++ [t])

/-- Position of a task id in an order: the index of its first occurrence
in the id list of the order. -/
def posId (order : List TaskNode) (i : String) : Nat :=
  (order.map TaskNode.id).indexOf i

/-- Modelled from the spec: the Task Graph topological sort is crewai
library code not present under src/.  Kahn-style greedy: repeatedly place
the first (in declaration order) unplaced task all of whose dependencies
are already placed; if no task is eligible while some remain, the graph has
a cycle and the sort fails. -/
def topoSort : Nat → List TaskNode → List TaskNode → Option (List TaskNode)
  | _, placed, [] => some placed
  | 0, _, _ :: _ => none
  | fuel + 1, placed, t :: ts =>
    match (t :: ts).find? (readyB (placed.map TaskNode.id)) with
    | none => none
    | some u => topoSort fuel (placed ++ [u]) ((t :: ts).erase u)

/-- Modelled from the spec: build(tasks, agents) of the Task Graph
(spec 4.1) is crewai library code not present under src/.  It validates
that every assigned agent exists in the registry and every dependency
reference resolves to a task of the graph (DanglingReferenceError
otherwise), then computes a topological order; a graph admitting none is a
CycleError. -/
def build (tasks : List TaskNode) (agents : List Agent) :
    Except BuildError (List TaskNode) :=
  if (tasks.all fun t => agents.any fun a => a.id == t.assigned_agent) &&
     (tasks.all fun t => t.dependencies.all fun d => tasks.any fun u => u.id == d) then
    match topoSort tasks.length [] tasks with
    | some order => .ok order
    | none => .error .CycleError
  else .error .DanglingReferenceError

/-! ## Scheduler (spec section 4.2) -/

/-- Raw output of a Capability Provider dispatch: text or structured
(spec section 6: complete returns text or structured). -/
inductive RawOutput
  | text (s : String)
  | structured (obj : JsonObject)
  deriving DecidableEq, Repr

/-- Provider errors, spec section 6. -/
inductive ProviderError
  | timeout
  | rateLimited
  | invalidRequest
  deriving DecidableEq, Repr

/-- One item of the effective context assembled for a task, spec 4.2
step 2: outputs of declared dependencies, then memory entries; validation
errors are appended on schema-mismatch retries (step 4). -/
inductive CtxItem
  | depOutput (taskId : String) (out : RawOutput)
  | memoryItem (content : String)
  | validationError (field reason : String)
  deriving DecidableEq, Repr

/-- The Capability Provider, an injected external dependency
(spec section 2): given a task and an assembled context, it returns raw
output or fails. -/
abbrev Provider := TaskNode → List CtxItem → Except ProviderError RawOutput

/-- Modelled from the spec: acceptance of a dispatch result (spec 4.2
step 4).  When the task declares an output schema the Output Validator
runs; text output cannot satisfy a structured schema. -/
def acceptOutput (t : TaskNode) (o : RawOutput) : Except SchemaViolation RawOutput :=
  match t.output_schema with
  | none => .ok o
  | some s =>
    match o with
    | .structured obj => (validate obj s).map .structured
    | .text _ => .error ⟨"", "output is not structured"⟩

/-- Outcome of the per-task attempt loop: the accepted output when some
attempt succeeded (none encodes terminal Failed), together with the list of
dispatched contexts in order. -/
structure AttemptOutcome where
  result : Option RawOutput
  dispatches : List (List CtxItem)
  deriving DecidableEq, Repr

/-- Modelled from the spec: the retry loop of the Scheduler (spec 4.2
steps 3-5) is crewai library code not present under src/.  Each attempt
dispatches to the provider; a schema mismatch re-dispatches with the
validation error appended to the context; a provider error re-dispatches
with the same context; exhausting the budget is terminal Failed. -/
def attemptLoop (P : Provider) (t : TaskNode) : Nat → List CtxItem → AttemptOutcome
  | 0, _ => ⟨none, []⟩
  | n + 1, ctx =>
    match P t ctx with
    | .error _ =>
      let r := attemptLoop P t n ctx
      ⟨r.result, ctx :: r.dispatches⟩
    | .ok o =>
      match acceptOutput t o with
      | .ok v => ⟨some v, [ctx]⟩
      | .error sv =>
        let r := attemptLoop P t n (ctx ++ [.validationError sv.field sv.reason])
        ⟨r.result, ctx :: r.dispatches⟩

/-- Replace every occurrence of pat by rep in a character list, scanning
left to right; the fuel argument bounds the recursion by the length of the
scanned list. -/
def replaceChars : Nat → List Char → List Char → List Char → List Char
  | 0, _, _, l => l
  | _ + 1, [], _, l => l
  | fuel + 1, pat, rep, l =>
    match l with
    | [] => []
    | c :: rest =>
      if pat.isPrefixOf l then rep ++ replaceChars fuel pat rep (l.drop pat.length)
      else c :: replaceChars fuel pat rep rest

/-- Replace every occurrence of pat by rep in l. -/
def replaceAllChars (pat rep l : List Char) : List Char :=
  replaceChars l.length pat rep l

/-- Render a template by substituting Run Context placeholders
(spec 4.2 step 1): each occurrence of a placeholder name in braces is
replaced by its Run Context value. -/
def renderTemplate (inputs : List (String × String)) (s : String) : String :=
  inputs.foldl (fun acc kv =>
    ⟨replaceAllChars ("\x7b" ++ kv.1 ++ "\x7d").data kv.2.data acc.data⟩) s

/-- Text form of a raw output, used when summarizing into memory. -/
def rawText : RawOutput → String
  | .text s => s
  | .structured _ => "structured output"

/-- The dependency-output items of a context. -/
def depItems (ctx : List CtxItem) : List (String × RawOutput) :=
  ctx.filterMap fun it =>
    match it with
    | .depOutput d o => some (d, o)
    | _ => none

/-- Modelled from the spec: context assembly (spec 4.2 step 2) is crewai
library code not present under src/.  The effective context is the
concatenation of the outputs of the declared dependencies, in dependency
order, and, if memory is enabled, the top-k long-term memory entries most
similar to the rendered description. -/
def assembleContext (sim : String → String → Nat) (memOn : Bool) (k : Nat)
    (t : TaskNode) (rendered : String) (done : List (String × RawOutput))
    (mem : List MemEntry) : List CtxItem :=
  (t.dependencies.filterMap fun d =>
    (List.lookup d done).map fun o => CtxItem.depOutput d o) ++
  (if memOn then
    (recallMem sim mem rendered .longTerm k).map fun e => CtxItem.memoryItem e.content
   else [])

/-- The max_iterations budget of the agent assigned to a task; the spec
gives no default for an unset max_iterations, so an unset value is
modelled as a single attempt. -/
def maxIterOf (agents : List Agent) (aid : String) : Nat :=
  (((agents.find? fun a => a.id == aid).bind fun a => a.policy.max_iterations).getD 1)

/-- The result of a run, spec section 6: per-task status and output, the
failed task if the run halted, the memory store after the run, and how
often the planner was asked to re-route. executed lists the succeeded
tasks in execution order with their accepted outputs; dispatched records
the assembled base context of every task that was dispatched. -/
structure RunResult where
  executed : List (String × RawOutput)
  dispatched : List (String × List CtxItem)
  failed : Option String
  memStore : List MemEntry
  plannerCalls : Nat
  deriving DecidableEq, Repr

/-- Status of a task in a run result: Succeeded when its accepted output
was collected, Failed when it is the task the run halted on, Pending
otherwise (spec section 3: failed tasks remain as terminal records). -/
def statusOf (r : RunResult) (id : String) : Status :=
  if (r.executed.map Prod.fst).contains id then .Succeeded
  else if r.failed == some id then .Failed
  else .Pending

/-- The effective context assembled for a task at a given scheduler state
(spec 4.2 steps 1 and 2). -/
def taskCtx (inputs : List (String × String)) (sim : String → String → Nat)
    (memOn : Bool) (k : Nat) (ex : List (String × RawOutput))
    (mem : List MemEntry) (t : TaskNode) : List CtxItem :=
  assembleContext sim memOn k t (renderTemplate inputs t.description) ex mem

/-- The outcome of running the attempt loop for a task at a given scheduler
state: the accepted output, or none for terminal failure. -/
def taskResult (P : Provider) (agents : List Agent)
    (inputs : List (String × String)) (sim : String → String → Nat)
    (memOn : Bool) (k : Nat) (ex : List (String × RawOutput))
    (mem : List MemEntry) (t : TaskNode) : Option RawOutput :=
  (attemptLoop P t (maxIterOf agents t.assigned_agent)
    (taskCtx inputs sim memOn k ex mem t)).result

/-- The long-term memory entry summarizing a task and its output
(spec 4.2 step 6). -/
def memEntryFor (inputs : List (String × String)) (t : TaskNode)
    (out : RawOutput) (mem : List MemEntry) : MemEntry :=
  ⟨.longTerm, renderTemplate inputs t.description ++ " -> " ++ rawText out,
   t.id, mem.length⟩

/-- Modelled from the spec: the Sequential process loop of the Scheduler
(spec 4.1, 4.2) is crewai library code not present under src/.  next_ready
is the first pending task in declaration order whose dependencies have all
succeeded; a terminal task failure halts the run, preserving the partial
result (spec section 7). -/
def seqLoop (P : Provider) (agents : List Agent) (inputs : List (String × String))
    (sim : String → String → Nat) (memOn : Bool) (k : Nat) :
    Nat → List TaskNode → List (String × RawOutput) →
    List (String × List CtxItem) → List MemEntry → RunResult
  | 0, _, ex, dis, mem => ⟨ex, dis, none, mem, 0⟩
  | fuel + 1, pending, ex, dis, mem =>
    match pending.find? (readyB (ex.map Prod.fst)) with
    | none => ⟨ex, dis, none, mem, 0⟩
    | some t =>
      match taskResult P agents inputs sim memOn k ex mem t with
      | some out =>
        seqLoop P agents inputs sim memOn k fuel (pending.erase t)
          (ex ++ [(t.id, out)])
          (dis ++ [(t.id, taskCtx inputs sim memOn k ex mem t)])
          (if memOn then mem ++ [memEntryFor inputs t out mem] else mem)
      | none =>
        ⟨ex, dis ++ [(t.id, taskCtx inputs sim memOn k ex mem t)], some t.id, mem, 0⟩

/-- Validity of a planner proposal (spec 4.1): every proposed task is drawn
from the pending tasks and the proposed order is dependency-consistent
given the already succeeded ids. -/
def validPlan (doneIds : List String) (pending proposal : List TaskNode) : Bool :=
  (proposal.all fun t => pending.any fun u => u.id == t.id) &&
  topoConsistent doneIds proposal

/-- Modelled from the spec: the Planned process loop (spec 4.1, 4.2 step 5,
section 7) is crewai library code not present under src/.  It runs like the
sequential loop, but on a terminal task failure the planner is asked once
to re-route around the failure; a valid proposal replaces the pending
order, an invalid one halts the run; a second failure halts the run.  The
rerouted flag records whether the single re-route was already consumed. -/
def planLoop (P : Provider) (planner : String → List TaskNode → List TaskNode)
    (agents : List Agent) (inputs : List (String × String))
    (sim : String → String → Nat) (memOn : Bool) (k : Nat) :
    Nat → Bool → List TaskNode → List (String × RawOutput) →
    List (String × List CtxItem) → List MemEntry → RunResult
  | 0, rr, _, ex, dis, mem => ⟨ex, dis, none, mem, if rr then 1 else 0⟩
  | fuel + 1, rr, pending, ex, dis, mem =>
    match pending.find? (readyB (ex.map Prod.fst)) with
    | none => ⟨ex, dis, none, mem, if rr then 1 else 0⟩
    | some t =>
      match taskResult P agents inputs sim memOn k ex mem t with
      | some out =>
        planLoop P planner agents inputs sim memOn k fuel rr (pending.erase t)
          (ex ++ [(t.id, out)])
          (dis ++ [(t.id, taskCtx inputs sim memOn k ex mem t)])
          (if memOn then mem ++ [memEntryFor inputs t out mem] else mem)
      | none =>
        if rr then
          ⟨ex, dis ++ [(t.id, taskCtx inputs sim memOn k ex mem t)], some t.id, mem, 1⟩
        else
          let prop := planner t.id (pending.erase t)
          if validPlan (ex.map Prod.fst) (pending.erase t) prop then
            planLoop P planner agents inputs sim memOn k fuel true prop
              ex (dis ++ [(t.id, taskCtx inputs sim memOn k ex mem t)]) mem
          else
            ⟨ex, dis ++ [(t.id, taskCtx inputs sim memOn k ex mem t)], some t.id, mem, 1⟩

/-- Process kinds, spec section 3: Sequential or Planned. -/
inductive ProcessKind
  | sequential
  | planned
  deriving DecidableEq, Repr

/-- A crew, spec section 3: agents, tasks, process and memory flag. -/
structure CrewDef where
  agents : List Agent
  tasks : List TaskNode
  process : ProcessKind
  memory_enabled : Bool
  deriving DecidableEq, Repr

/-- Modelled from the spec: kickoff(inputs) (spec section 6) is crewai
library code not present under src/.  It drives the tasks of the crew
through the process loop over the persistent memory store, with the
Capability Provider, planner, similarity function and top-k injected. -/
def kickoff (c : CrewDef) (P : Provider)
    (planner : String → List TaskNode → List TaskNode)
    (sim : String → String → Nat) (k : Nat)
    (inputs : List (String × String)) (mem : List MemEntry) : RunResult :=
  match c.process with
  | .sequential =>
    seqLoop P c.agents inputs sim c.memory_enabled k c.tasks.length c.tasks [] [] mem
  | .planned =>
    let prop := planner "" c.tasks
    let order := if validPlan [] c.tasks prop then prop else c.tasks
    planLoop P planner c.agents inputs sim c.memory_enabled k order.length false
      order [] [] mem

/-! ## Concrete data embedded from the sources -/

/-- Embedded from src/1_crew_understanding/6_memory.py lines 20-27: the
research agent.  No policy knobs are set there; allow_delegation defaults
to off. -/
def research_agent : Agent :=
  { id := "research_agent"
    role := "Research Specialist"
    goal := "Research interesting facts about the topic: {topic}"
    backstory := "You are an expert at finding relevant and factual data."
    policy := ⟨none, none, false, false⟩ }

/-- Embedded from src/1_crew_understanding/6_memory.py lines 30-36: the
writer agent. -/
def writer_agent : Agent :=
  { id := "writer_agent"
    role := "Creative Writer"
    goal := "Write a short blog summary using the research"
    backstory := "You are skilled at writing engaging summaries based on provided content."
    policy := ⟨none, none, false, false⟩ }

/-- Embedded from src/1_crew_understanding/6_memory.py lines 39-43 (task1)
and, for the task name, the research_task of
src/1_crew_understanding/5a_yaml.py: the research task, with no
dependencies. -/
def research_task : TaskNode :=
  { id := "research_task"
    description := "Find 3-5 interesting and recent facts about {topic} as of year 2025."
    expected_output := "A bullet list of 3-5 facts"
    assigned_agent := "research_agent"
    dependencies := []
    output_schema := none }

/-- Embedded from src/1_crew_understanding/6_memory.py lines 46-51 (task2,
context=[task1]) and, for the task name, the blog_task of
src/1_crew_understanding/5a_yaml.py: the blog task, depending on the
research task. -/
def blog_task : TaskNode :=
  { id := "blog_task"
    description := "Write a 100-word blog post summary about {topic} using the facts from the research."
    expected_output := "A blog post summary"
    assigned_agent := "writer_agent"
    dependencies := ["research_task"]
    output_schema := none }

/-- Embedded from src/1_crew_understanding/6_memory.py lines 54-66: the
blog crew, sequential process (the default), memory enabled. -/
def blogCrew : CrewDef :=
  { agents := [research_agent, writer_agent]
    tasks := [research_task, blog_task]
    process := .sequential
    memory_enabled := true }

/-- Embedded from src/4_marketing-crew-usecase/crew.py lines 40-56: the
head_of_marketing agent; allow_delegation=True, max_rpm=3, inject_date,
no max_iter.  Role, goal and backstory come from a YAML config file that is
not under src/, so they are left empty. -/
def head_of_marketing : Agent :=
  { id := "head_of_marketing", role := "", goal := "", backstory := ""
    policy := ⟨none, some 3, true, true⟩ }

/-- Embedded from src/4_marketing-crew-usecase/crew.py lines 59-75:
the content_creator_social_media agent; max_iter=30, max_rpm=3,
allow_delegation=True, inject_date. -/
def content_creator_social_media : Agent :=
  { id := "content_creator_social_media", role := "", goal := "", backstory := ""
    policy := ⟨some 30, some 3, true, true⟩ }

/-- Embedded from src/4_marketing-crew-usecase/crew.py lines 78-94:
the content_writer_blogs agent; max_iter=5, max_rpm=3. -/
def content_writer_blogs : Agent :=
  { id := "content_writer_blogs", role := "", goal := "", backstory := ""
    policy := ⟨some 5, some 3, true, true⟩ }

/-- Embedded from src/4_marketing-crew-usecase/crew.py lines 97-113:
the seo_specialist agent; max_iter=3, max_rpm=3. -/
def seo_specialist : Agent :=
  { id := "seo_specialist", role := "", goal := "", backstory := ""
    policy := ⟨some 3, some 3, true, true⟩ }

/-- Embedded from src/4_marketing-crew-usecase/crew.py lines 138-144: the
prepare_post_drafts task, output_json=Content, assigned to
content_creator_social_media.  Description and dependencies live in a YAML
config not under src/, so they are left empty. -/
def prepare_post_drafts : TaskNode :=
  { id := "prepare_post_drafts", description := "", expected_output := ""
    assigned_agent := "content_creator_social_media"
    dependencies := []
    output_schema := some contentSchema }

/-- Embedded from src/4_marketing-crew-usecase/crew.py lines 146-152: the
prepare_scripts_for_reels task, output_json=Content. -/
def prepare_scripts_for_reels : TaskNode :=
  { id := "prepare_scripts_for_reels", description := "", expected_output := ""
    assigned_agent := "content_creator_social_media"
    dependencies := []
    output_schema := some contentSchema }

/-- Embedded from src/4_marketing-crew-usecase/crew.py lines 117-136,
154-175: the remaining marketing tasks (descriptions and dependencies live
in YAML configs not under src/).  Note that the source assigns
create_content_calendar to self.content_writer_social_media(), a method
that does not exist in the class; the reference is embedded as written. -/
def market_research : TaskNode :=
  { id := "market_research", description := "", expected_output := ""
    assigned_agent := "head_of_marketing", dependencies := [], output_schema := none }

def prepare_marketing_strategy : TaskNode :=
  { id := "prepare_marketing_strategy", description := "", expected_output := ""
    assigned_agent := "head_of_marketing", dependencies := [], output_schema := none }

def create_content_calendar : TaskNode :=
  { id := "create_content_calendar", description := "", expected_output := ""
    assigned_agent := "content_writer_social_media", dependencies := [], output_schema := none }

def content_research_for_blogs : TaskNode :=
  { id := "content_research_for_blogs", description := "", expected_output := ""
    assigned_agent := "content_writer_blogs", dependencies := [], output_schema := none }

def draft_blogs : TaskNode :=
  { id := "draft_blogs", description := "", expected_output := ""
    assigned_agent := "content_writer_blogs", dependencies := [], output_schema := some contentSchema }

def seo_optimization : TaskNode :=
  { id := "seo_optimization", description := "", expected_output := ""
    assigned_agent := "seo_specialist", dependencies := [], output_schema := some contentSchema }

/-- Embedded from src/4_marketing-crew-usecase/crew.py lines 178-189: the
marketing crew, sequential process with planning=True, which the spec
models as the Planned process; no memory flag is set. -/
def marketingCrew : CrewDef :=
  { agents := [head_of_marketing, content_creator_social_media,
               content_writer_blogs, seo_specialist]
    tasks := [market_research, prepare_marketing_strategy, create_content_calendar,
              prepare_post_drafts, prepare_scripts_for_reels,
              content_research_for_blogs, draft_blogs, seo_optimization]
    process := .planned
    memory_enabled := false }

/-! ## Derived predicates and witness inputs -/

/-- A field is present in a structured value with its declared type. -/
def presentTyped (obj : JsonObject) (n : String) (ty : FieldType) : Prop :=
  ∃ v, lookupField obj n = some v ∧ typeMatches v ty = true

/-- A structured value conforming to the Content schema, used as witness
input. -/
def sampleContent : JsonObject :=
  [("content_type", .str "post"), ("topic", .str "EVs"),
   ("target_audience", .str "SMEs"), ("tags", .strList ["ai", "excel"]),
   ("content", .str "body")]

/-- A structured value missing the required tags field, used as witness
input (the scenario of spec section 8). -/
def sampleMissingTags : JsonObject :=
  [("content_type", .str "post"), ("topic", .str "EVs"),
   ("target_audience", .str "SMEs"), ("content", .str "body")]

/-- An equality-based similarity function used for witnesses. -/
def simEq (a b : String) : Nat := if a == b then 1 else 0

/-- Two concrete long-term memory entries used as witness inputs. -/
def memE1 : MemEntry :=
  ⟨.longTerm, "The future of electrical vehicles -> facts", "research_task", 0⟩

def memE2 : MemEntry :=
  ⟨.longTerm, "What is the revenue outlook in this sector? -> summary", "blog_task", 1⟩

/-- A concrete Capability Provider for the blog crew scenario: the research
task yields a bullet-style fact list, the blog task yields a summary. -/
def blogProvider : Provider := fun t _ =>
  if t.id == "research_task" then
    .ok (.text "- EV fact one\n- EV fact two\n- EV fact three")
  else
    .ok (.text "A 100-word blog post summary built from the research facts.")

/-- The planner that keeps the declared order, used where a planner must be
injected but plays no role. -/
def idPlanner : String → List TaskNode → List TaskNode := fun _ ts => ts

/-- A provider returning structured output that lacks the required tags
field, used as witness input for the validation retry scenario. -/
def noTagsProvider : Provider := fun _ _ =>
  .ok (.structured
    [("content_type", .str "post"), ("topic", .str "excel automation"),
     ("target_audience", .str "SMEs"), ("content", .str "draft body")])

/-- A provider failing on the blog task and succeeding elsewhere, used as
witness input for the halt-on-failure theorem. -/
def failProvider : Provider := fun t _ =>
  if t.id == "blog_task" then .error .timeout
  else .ok (.text "partial result")

/-- Two tasks depending on each other, forming a dependency cycle; witness
input for the cyclic half of the build theorem. -/
def cycTaskA : TaskNode :=
  { id := "a", description := "", expected_output := ""
    assigned_agent := "research_agent", dependencies := ["b"], output_schema := none }

def cycTaskB : TaskNode :=
  { id := "b", description := "", expected_output := ""
    assigned_agent := "research_agent", dependencies := ["a"], output_schema := none }

/-- A synthetic task with two declared dependencies, used as witness
input. -/
def twoDepTask : TaskNode :=
  { id := "summary_task", description := "summarize", expected_output := ""
    assigned_agent := "writer_agent"
    dependencies := ["research_task", "blog_task"]
    output_schema := none }

/-! ## Output Validator theorems (claims C9 and C10) -/

theorem fieldOkB_required_iff (obj : JsonObject) (n : String) (ty : FieldType)
    (d : String) : fieldOkB obj ⟨n, ty, true, d⟩ = true ↔ presentTyped obj n ty := by
  cases h : lookupField obj n <;> simp [fieldOkB, presentTyped, h]

theorem firstViolation_eq_none_iff (obj : JsonObject) (schema : StructuredSchema) :
    firstViolation obj schema = none ↔ conformsB obj schema = true := by
  induction schema with
  | nil => simp [firstViolation, conformsB]
  | cons f fs ih =>
    unfold firstViolation
    cases hlk : lookupField obj f.name with
    | none =>
      cases hr : f.required with
      | true => simp [conformsB, fieldOkB, hlk, hr]
      | false => simpa [conformsB, fieldOkB, hlk, hr] using ih
    | some v =>
      cases htm : typeMatches v f.ftype with
      | true => simpa [conformsB, fieldOkB, hlk, htm] using ih
      | false => simp [conformsB, fieldOkB, hlk, htm]

theorem firstViolation_some_mem (obj : JsonObject) (schema : StructuredSchema)
    (sv : SchemaViolation) (h : firstViolation obj schema = some sv) :
    ∃ f ∈ schema, f.name = sv.field ∧
      ((lookupField obj f.name = none ∧ f.required = true) ∨
       ∃ v, lookupField obj f.name = some v ∧ typeMatches v f.ftype = false) := by
  induction schema with
  | nil => simp [firstViolation] at h
  | cons f fs ih =>
    unfold firstViolation at h
    cases hlk : lookupField obj f.name with
    | none =>
      rw [hlk] at h
      cases hr : f.required with
      | true =>
        rw [hr] at h
        simp only [if_true, Option.some.injEq] at h
        subst h
        exact ⟨f, by simp, rfl, Or.inl ⟨hlk, hr⟩⟩
      | false =>
        rw [hr] at h
        simp only [if_false] at h
        obtain ⟨g, hg, hrest⟩ := ih h
        exact ⟨g, by simp [hg], hrest⟩
    | some v =>
      rw [hlk] at h
      cases htm : typeMatches v f.ftype with
      | true =>
        simp only [htm] at h
        obtain ⟨g, hg, hrest⟩ := ih h
        exact ⟨g, by simp [hg], hrest⟩
      | false =>
        simp only [htm, Bool.false_eq_true, if_false, Option.some.injEq] at h
        subst h
        exact ⟨f, by simp, rfl, Or.inr ⟨v, hlk, htm⟩⟩

theorem validate_ok_iff (obj : JsonObject) (s : StructuredSchema) :
    (∃ v, validate obj s = .ok v) ↔ firstViolation obj s = none := by
  unfold validate
  cases h : firstViolation obj s <;> simp

/-- C9: validate is idempotent on valid values: for every structured value
that already conforms to a schema, validate returns it unchanged, so
re-running validate on a validated value returns the same value. -/
theorem C9_validate_idempotent (obj : JsonObject) (s : StructuredSchema)
    (v : JsonObject) (h : validate obj s = .ok v) : validate v s = .ok v := by
  unfold validate at h ⊢
  cases hfv : firstViolation obj s with
  | none =>
    rw [hfv] at h
    injection h with h2
    subst h2
    rw [hfv]
  | some sv =>
    rw [hfv] at h
    exact absurd h (by simp)

theorem C9_validate_idempotent_witness :
    validate sampleContent contentSchema = .ok sampleContent :=
  C9_validate_idempotent sampleContent contentSchema sampleContent rfl

/-- C10: every field of the Content schema is required, validate against it
succeeds exactly when the five fields are present with their declared
types, and a failure names a field of the schema that is missing or
mistyped. -/
theorem C10_content_schema_validate :
    (∀ f ∈ contentSchema, f.required = true) ∧
    (∀ obj : JsonObject,
      (∃ v, validate obj contentSchema = .ok v) ↔
      (presentTyped obj "content_type" .string ∧ presentTyped obj "topic" .string ∧
       presentTyped obj "target_audience" .string ∧
       presentTyped obj "tags" .listOfString ∧ presentTyped obj "content" .string)) ∧
    (∀ (obj : JsonObject) (sv : SchemaViolation),
      validate obj contentSchema = .error sv →
      ∃ f ∈ contentSchema, f.name = sv.field ∧
        ((lookupField obj sv.field = none ∧ f.required = true) ∨
         ∃ v, lookupField obj sv.field = some v ∧ typeMatches v f.ftype = false)) := by
  refine ⟨by decide, fun obj => ?_, fun obj sv h => ?_⟩
  · rw [validate_ok_iff, firstViolation_eq_none_iff]
    simp [conformsB, contentSchema, fieldOkB_required_iff, and_assoc]
  · have hfv : firstViolation obj contentSchema = some sv := by
      unfold validate at h
      cases hx : firstViolation obj contentSchema with
      | none => rw [hx] at h; exact absurd h (by simp)
      | some sv2 => rw [hx] at h; injection h with h2; rw [h2]
    obtain ⟨f, hf, hname, hrest⟩ := firstViolation_some_mem obj contentSchema sv hfv
    exact ⟨f, hf, hname, by rw [← hname]; exact hrest⟩

theorem C10_content_schema_validate_witness :
    ∃ f ∈ contentSchema, f.name = "tags" ∧
      ((lookupField sampleMissingTags "tags" = none ∧ f.required = true) ∨
       ∃ v, lookupField sampleMissingTags "tags" = some v ∧
         typeMatches v f.ftype = false) :=
  C10_content_schema_validate.2.2 sampleMissingTags
    ⟨"tags", "missing required field"⟩ rfl

/-! ## Memory Store theorems (claims C7 and C8) -/

theorem bestEntry_mem (sim : String → String → Nat) (q : String) :
    ∀ (es : List MemEntry) (best : MemEntry), bestEntry sim q best es ∈ best :: es := by
  intro es
  induction es with
  | nil => intro best; simp [bestEntry]
  | cons e es ih =>
    intro best
    unfold bestEntry
    by_cases hc : sim q best.content < sim q e.content
    · rw [if_pos hc]
      exact List.mem_cons_of_mem best (ih e)
    · rw [if_neg hc]
      rcases List.mem_cons.1 (ih best) with h | h
      · rw [h]; exact List.mem_cons_self _ _
      · exact List.mem_cons_of_mem _ (List.mem_cons_of_mem _ h)

theorem bestEntry_eq_of_max (sim : String → String → Nat) (q : String) :
    ∀ (es : List MemEntry) (b : MemEntry),
      (∀ x ∈ es, sim q x.content ≤ sim q b.content) → bestEntry sim q b es = b := by
  intro es
  induction es with
  | nil => intro b _; rfl
  | cons e es ih =>
    intro b h
    unfold bestEntry
    rw [if_neg (Nat.not_lt.2 (h e (List.mem_cons_self e es)))]
    exact ih b (fun x hx => h x (List.mem_cons_of_mem e hx))

theorem recallAux_perm (sim : String → String → Nat) (q : String) :
    ∀ (k : Nat) (es : List MemEntry), es.length ≤ k →
      (recallAux sim q k es).Perm es := by
  intro k
  induction k with
  | zero =>
    intro es h
    rw [Nat.le_zero, List.length_eq_zero] at h
    subst h
    simp [recallAux]
  | succ n ih =>
    intro es h
    cases es with
    | nil => simp [recallAux]
    | cons e es' =>
      have hb : bestEntry sim q e es' ∈ e :: es' := bestEntry_mem sim q es' e
      have hlen : ((e :: es').erase (bestEntry sim q e es')).length ≤ n := by
        rw [List.length_erase_of_mem hb]
        simpa using Nat.le_of_succ_le_succ h
      have hstep : recallAux sim q (n + 1) (e :: es') =
          bestEntry sim q e es' ::
            recallAux sim q n ((e :: es').erase (bestEntry sim q e es')) := by
        simp [recallAux]
      rw [hstep]
      exact ((ih _ hlen).cons _).trans (List.perm_cons_erase hb).symm

/-- Retrieval completeness: with k at least the store size, recall returns
every entry of the requested scope. -/
theorem recallMem_complete (sim : String → String → Nat) (store : List MemEntry)
    (q : String) (scope : MemScope) (k : Nat) (x : MemEntry)
    (hx : x ∈ store) (hs : x.scope = scope) (hk : store.length ≤ k) :
    x ∈ recallMem sim store q scope k := by
  unfold recallMem
  have hmem : x ∈ (store.filter (fun e => e.scope == scope)).reverse := by
    rw [List.mem_reverse, List.mem_filter]
    exact ⟨hx, by simp [hs]⟩
  have hlen : (store.filter (fun e => e.scope == scope)).reverse.length ≤ k :=
    le_trans (by simpa using List.length_filter_le _ store) hk
  exact (recallAux_perm sim q k _ hlen).mem_iff.2 hmem

/-- C7: remembering an entry and recalling its content with k = 1 in the
long-term scope returns that entry as the top result, provided no stored
entry is more similar to its content than the entry itself. -/
theorem C7_memory_round_trip (sim : String → String → Nat)
    (store : List MemEntry) (e : MemEntry) (hscope : e.scope = .longTerm)
    (hmax : ∀ x ∈ store, x.scope = .longTerm →
      sim e.content x.content ≤ sim e.content e.content) :
    recallMem sim (remember store e) e.content .longTerm 1 = [e] := by
  unfold recallMem remember
  rw [List.filter_append]
  have he : List.filter (fun x => x.scope == MemScope.longTerm) [e] = [e] := by
    simp [hscope]
  rw [he, List.reverse_append]
  simp only [List.reverse_singleton, List.singleton_append]
  have h1 : recallAux sim e.content 1
      (e :: (List.filter (fun x => x.scope == MemScope.longTerm) store).reverse) =
      [bestEntry sim e.content e
        (List.filter (fun x => x.scope == MemScope.longTerm) store).reverse] := by
    simp [recallAux]
  rw [h1]
  have h2 : bestEntry sim e.content e
      (List.filter (fun x => x.scope == MemScope.longTerm) store).reverse = e := by
    apply bestEntry_eq_of_max
    intro x hx
    rw [List.mem_reverse, List.mem_filter] at hx
    exact hmax x hx.1 (by simpa using hx.2)
  rw [h2]

theorem C7_memory_round_trip_witness :
    recallMem simEq (remember [memE1] memE2) memE2.content .longTerm 1 = [memE2] :=
  C7_memory_round_trip simEq [memE1] memE2 rfl (by decide)

/-- The sequential loop only appends to the memory store. -/
theorem seqLoop_memStore_extends (P : Provider) (agents : List Agent)
    (inputs : List (String × String)) (sim : String → String → Nat)
    (memOn : Bool) (k : Nat) :
    ∀ (fuel : Nat) (pending : List TaskNode) (ex : List (String × RawOutput))
      (dis : List (String × List CtxItem)) (mem : List MemEntry),
      ∃ extra,
        (seqLoop P agents inputs sim memOn k fuel pending ex dis mem).memStore =
          mem ++ extra := by
  intro fuel
  induction fuel with
  | zero => intro pending ex dis mem; exact ⟨[], by simp [seqLoop]⟩
  | succ n ih =>
    intro pending ex dis mem
    cases hf : pending.find? (readyB (ex.map Prod.fst)) with
    | none => exact ⟨[], by simp [seqLoop, hf]⟩
    | some t =>
      cases hr : taskResult P agents inputs sim memOn k ex mem t with
      | some out =>
        obtain ⟨extra, hx⟩ := ih (pending.erase t) (ex ++ [(t.id, out)])
          (dis ++ [(t.id, taskCtx inputs sim memOn k ex mem t)])
          (if memOn then mem ++ [memEntryFor inputs t out mem] else mem)
        refine ⟨(if memOn then [memEntryFor inputs t out mem] else []) ++ extra, ?_⟩
        simp only [seqLoop, hf, hr]
        rw [hx]
        cases memOn <;> simp
      | none => exact ⟨[], by simp [seqLoop, hf, hr]⟩

/-- C8: long-term memory is append-only and retrieval is monotonic:
remember only appends, any stored entry of the queried scope is returned by
a recall of width at least the store size, and an entry written during a
first kickoff of the blog crew is surfaced by a full-width recall over the
store left by a second kickoff. -/
theorem C8_memory_append_only_monotonic :
    (∀ (store : List MemEntry) (e x : MemEntry), x ∈ store → x ∈ remember store e) ∧
    (∀ (sim : String → String → Nat) (store : List MemEntry) (q : String)
        (scope : MemScope) (k : Nat) (x : MemEntry),
        x ∈ store → x.scope = scope → store.length ≤ k →
        x ∈ recallMem sim store q scope k) ∧
    (∀ (P : Provider) (planner : String → List TaskNode → List TaskNode)
        (sim : String → String → Nat) (k : Nat)
        (inputs1 inputs2 : List (String × String)) (mem0 : List MemEntry)
        (q : String) (x : MemEntry), x.scope = .longTerm →
        x ∈ (kickoff blogCrew P planner sim k inputs1 mem0).memStore →
        x ∈ recallMem sim
          (kickoff blogCrew P planner sim k inputs2
            ((kickoff blogCrew P planner sim k inputs1 mem0).memStore)).memStore
          q .longTerm
          ((kickoff blogCrew P planner sim k inputs2
            ((kickoff blogCrew P planner sim k inputs1 mem0).memStore)).memStore).length) := by
  refine ⟨fun store e x hx => List.mem_append_left _ hx,
          fun sim store q scope k x hx hs hk =>
            recallMem_complete sim store q scope k x hx hs hk,
          fun P planner sim k inputs1 inputs2 mem0 q x hsc hx1 => ?_⟩
  have hkick : ∀ (inputs : List (String × String)) (mem : List MemEntry),
      kickoff blogCrew P planner sim k inputs mem =
      seqLoop P blogCrew.agents inputs sim true k 2 blogCrew.tasks [] [] mem := by
    intro inputs mem; rfl
  obtain ⟨extra, hx2⟩ := seqLoop_memStore_extends P blogCrew.agents inputs2 sim true k
    2 blogCrew.tasks [] [] ((kickoff blogCrew P planner sim k inputs1 mem0).memStore)
  have hmem2 : x ∈ (kickoff blogCrew P planner sim k inputs2
      ((kickoff blogCrew P planner sim k inputs1 mem0).memStore)).memStore := by
    rw [hkick, hx2]
    exact List.mem_append_left _ hx1
  exact recallMem_complete _ _ _ _ _ _ hmem2 hsc (le_refl _)

theorem C8_memory_append_only_monotonic_witness :
    memEntryFor [("topic", "EVs")] research_task
        (.text "- EV fact one\n- EV fact two\n- EV fact three") [] ∈
      recallMem simEq
        (kickoff blogCrew blogProvider idPlanner simEq 2 [("topic", "Vans")]
          ((kickoff blogCrew blogProvider idPlanner simEq 2 [("topic", "EVs")]
            []).memStore)).memStore
        "" .longTerm
        ((kickoff blogCrew blogProvider idPlanner simEq 2 [("topic", "Vans")]
          ((kickoff blogCrew blogProvider idPlanner simEq 2 [("topic", "EVs")]
            []).memStore)).memStore).length :=
  C8_memory_append_only_monotonic.2.2 blogProvider idPlanner simEq 2
    [("topic", "EVs")] [("topic", "Vans")] [] ""
    (memEntryFor [("topic", "EVs")] research_task
      (.text "- EV fact one\n- EV fact two\n- EV fact three") [])
    rfl (by decide)

/-! ## Context assembly theorem (claim C3) -/

/-- C3: for a task whose declared dependencies are [A, B], the effective
context assembled by the Scheduler contains the accepted output of A
followed by that of B, in that order, and every dependency output appearing
in the context comes from the dependency set of the task (memory items are
memory entry contents, not task outputs). -/
theorem C3_context_dependency_outputs
    (sim : String → String → Nat) (memOn : Bool) (k : Nat) (t : TaskNode)
    (rendered : String) (done : List (String × RawOutput)) (mem : List MemEntry)
    (A B : String) (outA outB : RawOutput)
    (hdeps : t.dependencies = [A, B])
    (hA : List.lookup A done = some outA) (hB : List.lookup B done = some outB) :
    depItems (assembleContext sim memOn k t rendered done mem) =
      [(A, outA), (B, outB)] ∧
    (∀ d o, CtxItem.depOutput d o ∈ assembleContext sim memOn k t rendered done mem →
      d ∈ t.dependencies) := by
  constructor
  · cases memOn with
    | false => simp [assembleContext, depItems, hdeps, hA, hB]
    | true =>
      simp [assembleContext, depItems, hdeps, hA, hB, List.filterMap_append,
        List.filterMap_map, Function.comp]
  · intro d o hmem
    unfold assembleContext at hmem
    rcases List.mem_append.1 hmem with h | h
    · obtain ⟨d', hd', hmap⟩ := List.mem_filterMap.1 h
      obtain ⟨o', ho', heq⟩ := Option.map_eq_some'.1 hmap
      injection heq with heq1 heq2
      exact heq1 ▸ hd'
    · cases memOn with
      | false => simp at h
      | true =>
        simp only [if_true] at h
        obtain ⟨e, _, heq⟩ := List.mem_map.1 h
        exact absurd heq (by simp)

theorem C3_context_dependency_outputs_witness :
    depItems (assembleContext simEq true 2 twoDepTask "q"
        [("research_task", .text "facts"), ("blog_task", .text "post")] [memE1]) =
      [("research_task", .text "facts"), ("blog_task", .text "post")] ∧
    (∀ d o, CtxItem.depOutput d o ∈ assembleContext simEq true 2 twoDepTask "q"
        [("research_task", .text "facts"), ("blog_task", .text "post")] [memE1] →
      d ∈ twoDepTask.dependencies) :=
  C3_context_dependency_outputs simEq true 2 twoDepTask "q"
    [("research_task", .text "facts"), ("blog_task", .text "post")] [memE1]
    "research_task" "blog_task" (.text "facts") (.text "post") rfl rfl rfl

/-! ## Rate limiter theorems (claim C6) -/

theorem le_grantTime (N : Nat) (hist : List Nat) (now : Nat) :
    now ≤ grantTime N hist now := by
  unfold grantTime
  cases hist.drop (N - 1) with
  | nil => exact le_refl now
  | cons d rest => exact le_max_left now (d + 60)

/-- One limiter step preserves the descending order and the N-spacing of
the grant history. -/
theorem limiter_step (N : Nat) (hN : 0 < N) (hist : List Nat) (now : Nat)
    (hnow : ∀ y ∈ hist.head?, y ≤ now)
    (h1 : SortedDesc hist) (h2 : SpacedDesc N hist) :
    SortedDesc (grantTime N hist now :: hist) ∧
    SpacedDesc N (grantTime N hist now :: hist) := by
  have hg : now ≤ grantTime N hist now := le_grantTime N hist now
  constructor
  · rw [SortedDesc, List.chain'_cons']
    exact ⟨fun y hy => le_trans (hnow y hy) hg, h1⟩
  · intro i x y hx hy
    cases i with
    | zero =>
      rw [List.get?_cons_zero] at hx
      injection hx with hx
      subst hx
      have hyN : hist.get? (N - 1) = some y := by
        rw [show 0 + N = (N - 1) + 1 by omega, List.get?_cons_succ] at hy
        exact hy
      unfold grantTime
      cases hd : hist.drop (N - 1) with
      | nil =>
        have : hist.get? (N - 1) = none := by
          have h0 := List.get?_drop hist (N - 1) 0
          rw [hd] at h0
          simpa using h0.symm
        rw [this] at hyN
        exact absurd hyN (by simp)
      | cons d rest =>
        have hgd : hist.get? (N - 1) = some d := by
          have h0 := List.get?_drop hist (N - 1) 0
          rw [hd] at h0
          simpa using h0.symm
        rw [hyN] at hgd
        injection hgd with hgd
        rw [hgd]
        exact le_max_right now (d + 60)
    | succ i =>
      rw [List.get?_cons_succ] at hx
      rw [show i + 1 + N = (i + N) + 1 by omega, List.get?_cons_succ] at hy
      exact h2 i x y hx hy

/-- The limiter keeps its invariants along any arrival sequence. -/
theorem runLimiter_inv (N : Nat) (hN : 0 < N) :
    ∀ (as hist : List Nat), SortedDesc hist → SpacedDesc N hist →
      SortedDesc ((runLimiter N hist as).reverse ++ hist) ∧
      SpacedDesc N ((runLimiter N hist as).reverse ++ hist) := by
  intro as
  induction as with
  | nil =>
    intro hist h1 h2
    simpa [runLimiter] using ⟨h1, h2⟩
  | cons a as ih =>
    intro hist h1 h2
    have hnow : ∀ y ∈ hist.head?, y ≤ nowOf a hist := by
      cases hist with
      | nil => simp
      | cons g hs => simp [nowOf]
    obtain ⟨s1, s2⟩ := limiter_step N hN hist (nowOf a hist) hnow h1 h2
    have hres := ih (grantTime N hist (nowOf a hist) :: hist) s1 s2
    have hsh : (runLimiter N hist (a :: as)).reverse ++ hist =
        (runLimiter N (grantTime N hist (nowOf a hist) :: hist) as).reverse ++
        (grantTime N hist (nowOf a hist) :: hist) := by
      rw [show runLimiter N hist (a :: as) =
        grantTime N hist (nowOf a hist) ::
          runLimiter N (grantTime N hist (nowOf a hist) :: hist) as from rfl]
      rw [List.reverse_cons, List.append_assoc]
      rfl
    rw [hsh]
    exact hres

/-- From a sorted most-recent-first list, later positions hold smaller or
equal times. -/
theorem sortedDesc_get?_le (l : List Nat) (hs : SortedDesc l) (i j : Nat)
    (hij : i ≤ j) (x y : Nat) (hx : l.get? i = some x) (hy : l.get? j = some y) :
    y ≤ x := by
  rcases Nat.lt_or_ge i j with hlt | hge
  · have hp := (List.chain'_iff_pairwise.1 hs)
    obtain ⟨hi, hxi⟩ := List.get?_eq_some.1 hx
    obtain ⟨hj, hyj⟩ := List.get?_eq_some.1 hy
    have := (List.pairwise_iff_get.1 hp) ⟨i, hi⟩ ⟨j, hj⟩ hlt
    rw [hxi, hyj] at this
    exact this
  · have hij2 : i = j := le_antisymm hij hge
    subst hij2
    rw [hx] at hy
    injection hy with hy
    exact hy.symm.le

theorem drop_replicate_nat (a : Nat) (n m : Nat) :
    List.drop n (List.replicate m a) = List.replicate (m - n) a :=
  List.drop_replicate a n m

/-- When N + 1 requests arrive at the same instant, the limiter grants the
first N at that instant and delays the last to a full minute later. -/
theorem runLimiter_replicate (N : Nat) (hN : 0 < N) (a : Nat) :
    ∀ (m k : Nat), k + m = N + 1 → 1 ≤ m →
      runLimiter N (List.replicate k a) (List.replicate m a) =
        List.replicate (m - 1) a ++ [a + 60] := by
  intro m
  induction m with
  | zero => intro k _ h; omega
  | succ m ih =>
    intro k hk _
    have hnow : nowOf a (List.replicate k a) = a := by
      cases k with
      | zero => simp [nowOf]
      | succ k2 => rw [List.replicate_succ]; simp [nowOf]
    cases m with
    | zero =>
      have hkN : k = N := by omega
      rw [hkN] at hnow ⊢
      have hdrop : (List.replicate N a).drop (N - 1) = [a] := by
        rw [drop_replicate_nat, show N - (N - 1) = 1 by omega]
        simp [List.replicate_succ]
      have hgrant : grantTime N (List.replicate N a) a = a + 60 := by
        unfold grantTime
        rw [hdrop]
        exact max_eq_right (by omega)
      show runLimiter N (List.replicate N a) [a] = [a + 60]
      rw [show runLimiter N (List.replicate N a) [a] =
        grantTime N (List.replicate N a) (nowOf a (List.replicate N a)) ::
          runLimiter N
            (grantTime N (List.replicate N a) (nowOf a (List.replicate N a)) ::
              List.replicate N a) [] from rfl]
      rw [hnow, hgrant]
      rfl
    | succ m2 =>
      have hkle : k ≤ N - 1 := by omega
      have hdrop : (List.replicate k a).drop (N - 1) = [] := by
        rw [drop_replicate_nat, show k - (N - 1) = 0 by omega]
        rfl
      have hgrant : grantTime N (List.replicate k a) a = a := by
        unfold grantTime
        rw [hdrop]
      show runLimiter N (List.replicate k a)
          (a :: List.replicate (m2 + 1) a) = _
      rw [show runLimiter N (List.replicate k a) (a :: List.replicate (m2 + 1) a) =
        grantTime N (List.replicate k a) (nowOf a (List.replicate k a)) ::
          runLimiter N
            (grantTime N (List.replicate k a) (nowOf a (List.replicate k a)) ::
              List.replicate k a) (List.replicate (m2 + 1) a) from rfl]
      rw [hnow, hgrant, show (a :: List.replicate k a) = List.replicate (k + 1) a from
        (List.replicate_succ a k).symm]
      rw [ih (k + 1) (by omega) (by omega)]
      rw [show m2 + 1 + 1 - 1 = (m2 + 1 - 1) + 1 by omega]
      rw [List.replicate_succ]
      rfl

/-- C6: rate limiting with max_requests_per_minute = N: the grant history
is chronologically ordered and N-spaced, so within any window shorter than
one minute at most N dispatches complete (the indices of two grants less
than 60 apart differ by less than N); and issuing N + 1 dispatches at one
instant delays the last grant by a full minute.  The limiter history is a
single per-agent state across the whole run, so the bound covers every
dispatch attributed to the agent.  head_of_marketing of the marketing crew
sets N = 3. -/
theorem C6_rate_limit (N : Nat) (hN : 0 < N) (arrivals : List Nat) :
    (SortedDesc ((runLimiter N [] arrivals).reverse) ∧
     SpacedDesc N ((runLimiter N [] arrivals).reverse)) ∧
    (∀ i j x y, i ≤ j →
      ((runLimiter N [] arrivals).reverse).get? i = some x →
      ((runLimiter N [] arrivals).reverse).get? j = some y →
      x < y + 60 → j - i < N) ∧
    (∀ a, ∃ gs, runLimiter N [] (List.replicate (N + 1) a) = gs ++ [a + 60]) := by
  obtain ⟨hs, hsp⟩ := by
    have h := runLimiter_inv N hN arrivals [] (by simp [SortedDesc])
      (by intro i x y hx _; simp at hx)
    simpa using h
  refine ⟨⟨hs, hsp⟩, fun i j x y hij hx hy hlt => ?_, fun a => ?_⟩
  · by_contra hcon
    have hiN : i + N ≤ j := by omega
    obtain ⟨hj, _⟩ := List.get?_eq_some.1 hy
    have hiNlt : i + N < ((runLimiter N [] arrivals).reverse).length :=
      lt_of_le_of_lt hiN hj
    obtain ⟨z, hz⟩ : ∃ z, ((runLimiter N [] arrivals).reverse).get? (i + N) = some z :=
      ⟨_, List.get?_eq_some.2 ⟨hiNlt, rfl⟩⟩
    have hzy : y ≤ z :=
      sortedDesc_get?_le _ hs (i + N) j hiN z y hz hy
    have hzx : z + 60 ≤ x := hsp i x z hx hz
    omega
  · exact ⟨List.replicate N a, by
      have h := runLimiter_replicate N hN a (N + 1) 0 (by omega) (by omega)
      simpa using h⟩

theorem C6_rate_limit_witness :
    ∃ gs, runLimiter 3 [] (List.replicate 4 7) = gs ++ [7 + 60] :=
  (C6_rate_limit 3 (by decide) [7, 7, 7, 7]).2.2 7

/-! ## Task Graph build theorems (claim C1) -/

theorem readyB_iff (ids : List String) (t : TaskNode) :
    readyB ids t = true ↔ ∀ d ∈ t.dependencies, d ∈ ids := by
  simp [readyB]

theorem topoConsistent_cons (seen : List String) (t : TaskNode) (ts : List TaskNode) :
    topoConsistent seen (t :: ts) = true ↔
      (∀ d ∈ t.dependencies, d ∈ seen) ∧ topoConsistent (t.id :: seen) ts = true := by
  simp [topoConsistent]

theorem topoConsistent_append_one (t : TaskNode) :
    ∀ (xs : List TaskNode) (seen : List String),
      topoConsistent seen (xs ++ [t]) = true ↔
        (topoConsistent seen xs = true ∧
          ∀ d ∈ t.dependencies, d ∈ seen ∨ d ∈ xs.map TaskNode.id) := by
  intro xs
  induction xs with
  | nil =>
    intro seen
    simp [topoConsistent_cons, topoConsistent]
  | cons x xs ih =>
    intro seen
    rw [List.cons_append, topoConsistent_cons, ih, topoConsistent_cons]
    constructor
    · rintro ⟨h1, h2, h3⟩
      refine ⟨⟨h1, h2⟩, fun d hd => ?_⟩
      rcases h3 d hd with hh | hh
      · rcases List.mem_cons.1 hh with rfl | hh2
        · right; simp
        · left; exact hh2
      · right; simp [hh]
    · rintro ⟨⟨h1, h2⟩, h3⟩
      refine ⟨h1, h2, fun d hd => ?_⟩
      rcases h3 d hd with hh | hh
      · left; exact List.mem_cons_of_mem _ hh
      · rw [List.map_cons] at hh
        rcases List.mem_cons.1 hh with rfl | hh2
        · left; exact List.mem_cons_self _ _
        · right; exact hh2

/-- Soundness of the greedy topological sort: a produced order is a
permutation of placed ++ pending and is dependency-consistent. -/
theorem topoSort_sound :
    ∀ (fuel : Nat) (placed pending order : List TaskNode),
      topoSort fuel placed pending = some order →
      topoConsistent [] placed = true →
      order.Perm (placed ++ pending) ∧ topoConsistent [] order = true := by
  intro fuel
  induction fuel with
  | zero =>
    intro placed pending order h hp
    cases pending with
    | nil =>
      simp only [topoSort, Option.some.injEq] at h
      subst h
      exact ⟨by simp, hp⟩
    | cons t ts => simp [topoSort] at h
  | succ n ih =>
    intro placed pending order h hp
    cases pending with
    | nil =>
      simp only [topoSort, Option.some.injEq] at h
      subst h
      exact ⟨by simp, hp⟩
    | cons t ts =>
      cases hf : (t :: ts).find? (readyB (placed.map TaskNode.id)) with
      | none => simp [topoSort, hf] at h
      | some u =>
        simp only [topoSort, hf] at h
        have hu : u ∈ t :: ts := List.mem_of_find?_eq_some hf
        have hready : readyB (placed.map TaskNode.id) u = true := List.find?_some hf
        have hptc : topoConsistent [] (placed ++ [u]) = true := by
          rw [topoConsistent_append_one]
          exact ⟨hp, fun d hd => Or.inr ((readyB_iff _ _).1 hready d hd)⟩
        obtain ⟨hperm, htc⟩ := ih (placed ++ [u]) ((t :: ts).erase u) order h hptc
        refine ⟨hperm.trans ?_, htc⟩
        rw [List.append_assoc]
        exact List.Perm.append_left placed
          (by simpa using (List.perm_cons_erase hu).symm)

theorem mem_of_getLast?_eq (l : List TaskNode) (x : TaskNode)
    (h : l.getLast? = some x) : x ∈ l := by
  have hx : x ∈ l.getLast? := by rw [h]; rfl
  obtain ⟨hne, heq⟩ := List.mem_getLast?_eq_getLast hx
  rw [heq]
  exact List.getLast_mem hne

/-- Pigeonhole walk: in a finite id-distinct task list in which every task
depends on another task of the list, repeatedly following a dependency edge
must revisit a task, yielding a dependency cycle; otherwise the walk grows
beyond the size of the list. -/
theorem walk_or_cycle (S : List TaskNode) (hnd : (S.map TaskNode.id).Nodup)
    (hS : ∀ t ∈ S, ∃ u ∈ S, DependsOn t u) :
    ∀ (m : Nat) (t : TaskNode), t ∈ S →
      (∃ c rest, (∀ x ∈ c :: rest, x ∈ S) ∧ List.Chain DependsOn c (rest ++ [c])) ∨
      (∃ w e, List.Chain' DependsOn (t :: w) ∧ (t :: w).getLast? = some e ∧
        (∀ x ∈ t :: w, x ∈ S) ∧ w.length = m ∧
        ((t :: w).map TaskNode.id).Nodup) := by
  intro m
  induction m with
  | zero =>
    intro t ht
    right
    exact ⟨[], t, List.chain'_singleton t, rfl, by simpa using ht, rfl, by simp⟩
  | succ m ih =>
    intro t ht
    rcases ih t ht with hcyc | ⟨w, e, hchain, hlast, hmem, hlen, hnodup⟩
    · exact Or.inl hcyc
    have heS : e ∈ S := hmem e (mem_of_getLast?_eq _ _ hlast)
    obtain ⟨u, huS, hedge⟩ := hS e heS
    by_cases hmemid : u.id ∈ (t :: w).map TaskNode.id
    · -- a repeated id closes a cycle
      left
      obtain ⟨u2, hu2, hid⟩ := List.mem_map.1 hmemid
      have huu : u2 = u := List.inj_on_of_nodup_map hnd (hmem u2 hu2) huS hid
      subst huu
      obtain ⟨l₁, l₂, hsplit⟩ := List.append_of_mem hu2
      have hchain2 : List.Chain' DependsOn (u2 :: l₂) :=
        (List.chain'_append.1 (by rwa [hsplit] at hchain)).2.1
      have hlast2 : (u2 :: l₂).getLast? = some e := by
        rw [hsplit] at hlast
        rwa [List.getLast?_append_of_ne_nil l₁ (by simp)] at hlast
      refine ⟨u2, l₂, ?_, ?_⟩
      · intro x hx
        refine hmem x ?_
        rw [hsplit]
        exact List.mem_append.2 (Or.inr hx)
      · show List.Chain' DependsOn ((u2 :: l₂) ++ [u2])
        refine List.chain'_append.2 ⟨hchain2, List.chain'_singleton u2, ?_⟩
        intro x hx y hy
        rw [hlast2] at hx
        simp only [Option.mem_def, Option.some.injEq] at hx
        simp only [List.head?_cons, Option.mem_def, Option.some.injEq] at hy
        rw [hx, hy] at hedge
        exact hedge
    · -- extend the walk
      right
      refine ⟨w ++ [u], u, ?_, ?_, ?_, ?_, ?_⟩
      · show List.Chain' DependsOn ((t :: w) ++ [u])
        refine List.chain'_append.2 ⟨hchain, List.chain'_singleton u, ?_⟩
        intro x hx y hy
        rw [hlast] at hx
        simp only [Option.mem_def, Option.some.injEq] at hx
        simp only [List.head?_cons, Option.mem_def, Option.some.injEq] at hy
        rw [hx, hy] at hedge
        exact hedge
      · have hg : ((t :: w) ++ [u]).getLast? = some u := by
          rw [List.getLast?_append_of_ne_nil _ (by simp)]
          rfl
        exact hg
      · intro x hx
        have hx2 : x ∈ (t :: w) ++ [u] := hx
        rcases List.mem_append.1 hx2 with h | h
        · exact hmem x h
        · rw [List.mem_singleton.1 h]
          exact huS
      · simp [hlen]
      · show (((t :: w) ++ [u]).map TaskNode.id).Nodup
        rw [List.map_append, List.nodup_append]
        refine ⟨hnodup, by simp, ?_⟩
        intro x hx hxu
        have hxeq : x = u.id := by simpa using hxu
        rw [hxeq] at hx
        exact hmemid hx

theorem hasCycle_of_all_dep (S : List TaskNode)
    (hnd : (S.map TaskNode.id).Nodup)
    (hS : ∀ t ∈ S, ∃ u ∈ S, DependsOn t u) (hne : S ≠ []) :
    ∃ c rest, (∀ x ∈ c :: rest, x ∈ S) ∧ List.Chain DependsOn c (rest ++ [c]) := by
  obtain ⟨t0, ht0⟩ : ∃ t0, t0 ∈ S := by
    cases S with
    | nil => exact absurd rfl hne
    | cons s ss => exact ⟨s, List.mem_cons_self s ss⟩
  rcases walk_or_cycle S hnd hS S.length t0 ht0 with hcyc | ⟨w, e, _, _, hmem, hlen, hnodup⟩
  · exact hcyc
  · exfalso
    have hsubset : (t0 :: w).map TaskNode.id ⊆ S.map TaskNode.id :=
      List.map_subset _ (fun x hx => hmem x hx)
    have hle := (List.Nodup.subperm hnodup hsubset).length_le
    simp only [List.length_map, List.length_cons, hlen] at hle
    omega

theorem topoConsistent_split (a : TaskNode) :
    ∀ (l₁ : List TaskNode) (seen : List String) (l₂ : List TaskNode),
      topoConsistent seen (l₁ ++ a :: l₂) = true →
      ∀ d ∈ a.dependencies, d ∈ seen ∨ d ∈ l₁.map TaskNode.id := by
  intro l₁
  induction l₁ with
  | nil =>
    intro seen l₂ h d hd
    exact Or.inl (((topoConsistent_cons seen a l₂).1 h).1 d hd)
  | cons x l₁ ih =>
    intro seen l₂ h d hd
    rw [List.cons_append] at h
    obtain ⟨_, h2⟩ := (topoConsistent_cons seen x (l₁ ++ a :: l₂)).1 h
    rcases ih (x.id :: seen) l₂ h2 d hd with hh | hh
    · rcases List.mem_cons.1 hh with rfl | hh2
      · right; simp
      · left; exact hh2
    · right
      rw [List.map_cons]
      exact List.mem_cons_of_mem _ hh

/-- In a dependency-consistent order with distinct ids, a dependency always
sits strictly earlier than its dependent. -/
theorem depends_posId_lt (order : List TaskNode)
    (hnd : (order.map TaskNode.id).Nodup)
    (htc : topoConsistent [] order = true) (a b : TaskNode)
    (ha : a ∈ order) (hb : b ∈ order) (hdep : DependsOn a b) :
    posId order b.id < posId order a.id := by
  obtain ⟨l₁, l₂, hsplit⟩ := List.append_of_mem ha
  have hbid : b.id ∈ l₁.map TaskNode.id := by
    rcases topoConsistent_split a l₁ [] l₂ (by rwa [hsplit] at htc) b.id hdep with h | h
    · exact absurd h (by simp)
    · exact h
  have hmap : order.map TaskNode.id =
      l₁.map TaskNode.id ++ a.id :: l₂.map TaskNode.id := by
    rw [hsplit]; simp
  have hanotin : a.id ∉ l₁.map TaskNode.id := by
    intro hin
    rw [hmap, List.nodup_append] at hnd
    exact hnd.2.2 hin (List.mem_cons_self _ _)
  have hpa : posId order a.id = (l₁.map TaskNode.id).length := by
    unfold posId
    rw [hmap, List.indexOf_append_of_not_mem hanotin]
    simp
  have hpb : posId order b.id < (l₁.map TaskNode.id).length := by
    unfold posId
    rw [hmap, List.indexOf_append_of_mem hbid]
    exact List.indexOf_lt_length.2 hbid
  rw [hpa]
  exact hpb

theorem chain_last_posId_lt (order : List TaskNode)
    (hnd : (order.map TaskNode.id).Nodup)
    (htc : topoConsistent [] order = true) :
    ∀ (l : List TaskNode) (x z : TaskNode),
      List.Chain DependsOn x (l ++ [z]) → x ∈ order →
      (∀ y ∈ l, y ∈ order) → z ∈ order →
      posId order z.id < posId order x.id := by
  intro l
  induction l with
  | nil =>
    intro x z hchain hx _ hz
    exact depends_posId_lt order hnd htc x z hx hz (List.chain_singleton.1 hchain)
  | cons b l ih =>
    intro x z hchain hx hy hz
    rw [List.cons_append, List.chain_cons] at hchain
    obtain ⟨hxb, hrest⟩ := hchain
    have hb : b ∈ order := hy b (List.mem_cons_self _ _)
    exact lt_trans
      (ih b z hrest hb (fun y hy2 => hy y (List.mem_cons_of_mem _ hy2)) hz)
      (depends_posId_lt order hnd htc x b hx hb hxb)

/-- A task list containing a dependency cycle admits no valid topological
order. -/
theorem hasCycle_no_validTopo (tasks : List TaskNode)
    (hnd : (tasks.map TaskNode.id).Nodup) (hcyc : HasDepCycle tasks)
    (order : List TaskNode) : ¬ ValidTopo tasks order := by
  rintro ⟨hperm, htc⟩
  obtain ⟨t, rest, hmem, hchain⟩ := hcyc
  have hndo : (order.map TaskNode.id).Nodup := ((hperm.map TaskNode.id).nodup_iff).2 hnd
  have hto : t ∈ order := hperm.mem_iff.2 (hmem t (List.mem_cons_self _ _))
  have hresto : ∀ y ∈ rest, y ∈ order :=
    fun y hy => hperm.mem_iff.2 (hmem y (List.mem_cons_of_mem _ hy))
  exact absurd (chain_last_posId_lt order hndo htc rest t t hchain hto hresto hto)
    (lt_irrefl _)

/-- Progress of the greedy topological sort: in a cycle-free graph, some
pending task is always ready. -/
theorem find_ready_progress (tasks pending : List TaskNode)
    (placedIds : List String)
    (hnocyc : ¬ HasDepCycle tasks)
    (hsub : ∀ x ∈ pending, x ∈ tasks)
    (hpnd : (pending.map TaskNode.id).Nodup)
    (hres : ∀ t ∈ pending, ∀ d ∈ t.dependencies,
      d ∈ placedIds ∨ d ∈ pending.map TaskNode.id)
    (hne : pending ≠ []) :
    ∃ u, pending.find? (readyB placedIds) = some u := by
  cases hfind : pending.find? (readyB placedIds) with
  | some u => exact ⟨u, rfl⟩
  | none =>
    exfalso
    have halldep : ∀ t ∈ pending, ∃ u ∈ pending, DependsOn t u := by
      intro t ht
      have hnotready : ¬ (∀ d ∈ t.dependencies, d ∈ placedIds) := by
        intro hall
        have := List.find?_eq_none.1 hfind t ht
        exact this ((readyB_iff _ _).2 hall)
      push_neg at hnotready
      obtain ⟨d, hd, hdnotin⟩ := hnotready
      rcases hres t ht d hd with h | h
      · exact absurd h hdnotin
      · obtain ⟨u, hu, huid⟩ := List.mem_map.1 h
        refine ⟨u, hu, ?_⟩
        rw [DependsOn, huid]
        exact hd
    obtain ⟨c, rest, hcm, hcc⟩ := hasCycle_of_all_dep pending hpnd halldep hne
    exact hnocyc ⟨c, rest, fun x hx => hsub x (hcm x hx), hcc⟩

/-- Completeness of the greedy topological sort: on a cycle-free,
id-distinct, reference-closed state it succeeds. -/
theorem topoSort_complete (tasks : List TaskNode)
    (hnd : (tasks.map TaskNode.id).Nodup)
    (hres : ∀ t ∈ tasks, ∀ d ∈ t.dependencies, d ∈ tasks.map TaskNode.id)
    (hnocyc : ¬ HasDepCycle tasks) :
    ∀ (fuel : Nat) (placed pending : List TaskNode),
      pending.length ≤ fuel → (∀ x ∈ pending, x ∈ tasks) →
      (pending.map TaskNode.id).Nodup →
      (placed.map TaskNode.id ++ pending.map TaskNode.id).Perm
        (tasks.map TaskNode.id) →
      ∃ order, topoSort fuel placed pending = some order := by
  intro fuel
  induction fuel with
  | zero =>
    intro placed pending hlen _ _ _
    rw [Nat.le_zero, List.length_eq_zero] at hlen
    subst hlen
    exact ⟨placed, rfl⟩
  | succ n ih =>
    intro placed pending hlen hsub hnd2 hperm
    cases pending with
    | nil => exact ⟨placed, rfl⟩
    | cons t ts =>
      have hresp : ∀ x ∈ t :: ts, ∀ d ∈ x.dependencies,
          d ∈ placed.map TaskNode.id ∨ d ∈ (t :: ts).map TaskNode.id := by
        intro x hx d hd
        have hdt : d ∈ tasks.map TaskNode.id := hres x (hsub x hx) d hd
        exact List.mem_append.1 (hperm.mem_iff.2 hdt)
      obtain ⟨u, hfind⟩ := find_ready_progress tasks (t :: ts)
        (placed.map TaskNode.id) hnocyc hsub hnd2 hresp (by simp)
      have hu : u ∈ t :: ts := List.mem_of_find?_eq_some hfind
      have hlen2 : ((t :: ts).erase u).length ≤ n := by
        rw [List.length_erase_of_mem hu]
        simp only [List.length_cons] at hlen ⊢
        omega
      have hsub2 : ∀ x ∈ (t :: ts).erase u, x ∈ tasks :=
        fun x hx => hsub x (List.mem_of_mem_erase hx)
      have hnd3 : (((t :: ts).erase u).map TaskNode.id).Nodup :=
        List.Nodup.sublist (List.Sublist.map _ (List.erase_sublist u (t :: ts))) hnd2
      have hperm2 : ((placed ++ [u]).map TaskNode.id ++
          ((t :: ts).erase u).map TaskNode.id).Perm (tasks.map TaskNode.id) := by
        refine List.Perm.trans ?_ hperm
        rw [List.map_append, List.append_assoc]
        refine List.Perm.append_left _ ?_
        have hpe := (List.perm_cons_erase hu).map TaskNode.id
        simpa using hpe.symm
      obtain ⟨order, horder⟩ := ih (placed ++ [u]) ((t :: ts).erase u)
        hlen2 hsub2 hnd3 hperm2
      refine ⟨order, ?_⟩
      simp only [topoSort, hfind]
      exact horder

/-- C1: for every well-formed task graph (distinct ids, agents registered,
dependency references resolving inside the graph), build succeeds on a
cycle-free graph and returns a topological order consistent with the
declared dependencies — every dependency of every task appears earlier in
that valid topological order — while a graph containing a dependency cycle
makes build fail with CycleError. -/
theorem C1_build_topological (tasks : List TaskNode) (agents : List Agent)
    (hnd : (tasks.map TaskNode.id).Nodup)
    (hag : ∀ t ∈ tasks, ∃ a ∈ agents, a.id = t.assigned_agent)
    (hres : ∀ t ∈ tasks, ∀ d ∈ t.dependencies, d ∈ tasks.map TaskNode.id) :
    (¬ HasDepCycle tasks →
      ∃ order, build tasks agents = .ok order ∧ ValidTopo tasks order) ∧
    (HasDepCycle tasks → build tasks agents = .error .CycleError) := by
  have hguard : ((tasks.all fun t => agents.any fun a => a.id == t.assigned_agent) &&
      (tasks.all fun t => t.dependencies.all fun d =>
        tasks.any fun u => u.id == d)) = true := by
    rw [Bool.and_eq_true]
    constructor
    · rw [List.all_eq_true]
      intro t ht
      rw [List.any_eq_true]
      obtain ⟨a, ha, haid⟩ := hag t ht
      exact ⟨a, ha, by simp [haid]⟩
    · rw [List.all_eq_true]
      intro t ht
      rw [List.all_eq_true]
      intro d hd
      rw [List.any_eq_true]
      obtain ⟨u, hu, huid⟩ := List.mem_map.1 (hres t ht d hd)
      exact ⟨u, hu, by simp [huid]⟩
  constructor
  · intro hnocyc
    obtain ⟨order, horder⟩ := topoSort_complete tasks hnd hres hnocyc
      tasks.length [] tasks (le_refl _) (fun x hx => hx) hnd (by simp)
    obtain ⟨hperm, htc⟩ := topoSort_sound tasks.length [] tasks order horder rfl
    refine ⟨order, ?_, by simpa using hperm, htc⟩
    unfold build
    rw [if_pos hguard, horder]
  · intro hcyc
    have hnone : topoSort tasks.length [] tasks = none := by
      cases hts : topoSort tasks.length [] tasks with
      | none => rfl
      | some order =>
        exfalso
        obtain ⟨hperm, htc⟩ := topoSort_sound tasks.length [] tasks order hts rfl
        exact hasCycle_no_validTopo tasks hnd hcyc order ⟨by simpa using hperm, htc⟩
    unfold build
    rw [if_pos hguard, hnone]

theorem C1_build_topological_witness :
    build [cycTaskA, cycTaskB] [research_agent] = .error .CycleError :=
  (C1_build_topological [cycTaskA, cycTaskB] [research_agent]
      (by decide) (by decide) (by decide)).2
    ⟨cycTaskA, [cycTaskB], by decide,
      List.Chain.cons (by decide) (List.Chain.cons (by decide) List.Chain.nil)⟩

/-! ## Sequential scheduling theorems (claim C2) -/

theorem topoConsistent_seen_congr :
    ∀ (l : List TaskNode) (seen1 seen2 : List String),
      (∀ d, d ∈ seen1 ↔ d ∈ seen2) →
      topoConsistent seen1 l = topoConsistent seen2 l := by
  intro l
  induction l with
  | nil => intro _ _ _; rfl
  | cons t ts ih =>
    intro seen1 seen2 hiff
    simp only [topoConsistent]
    have hall : (t.dependencies.all fun d => seen1.contains d)
        = (t.dependencies.all fun d => seen2.contains d) := by
      rw [Bool.eq_iff_iff]
      simp only [List.all_eq_true, List.elem_iff]
      exact ⟨fun h d hd => (hiff d).1 (h d hd), fun h d hd => (hiff d).2 (h d hd)⟩
    rw [hall, ih (t.id :: seen1) (t.id :: seen2)
      (fun d => by simp [List.mem_cons, hiff d])]

/-- Under the Sequential process, when the declaration order is
dependency-consistent and every dispatched task succeeds, the tasks run
exactly in declaration order. -/
theorem seqLoop_decl_order (P : Provider) (agents : List Agent)
    (inputs : List (String × String)) (sim : String → String → Nat)
    (memOn : Bool) (k : Nat) :
    ∀ (fuel : Nat) (pending : List TaskNode) (ex : List (String × RawOutput))
      (dis : List (String × List CtxItem)) (mem : List MemEntry),
      pending.length ≤ fuel →
      topoConsistent (ex.map Prod.fst) pending = true →
      (∀ t ∈ pending, ∀ ex2 mem2,
        (taskResult P agents inputs sim memOn k ex2 mem2 t).isSome) →
      (seqLoop P agents inputs sim memOn k fuel pending ex dis mem).executed.map
        Prod.fst = ex.map Prod.fst ++ pending.map TaskNode.id := by
  intro fuel
  induction fuel with
  | zero =>
    intro pending ex dis mem hlen htc hok
    rw [Nat.le_zero, List.length_eq_zero] at hlen
    subst hlen
    simp [seqLoop]
  | succ n ih =>
    intro pending ex dis mem hlen htc hok
    cases pending with
    | nil => simp [seqLoop]
    | cons t ts =>
      obtain ⟨hdeps, htc2⟩ := (topoConsistent_cons _ _ _).1 htc
      have hready : readyB (ex.map Prod.fst) t = true := (readyB_iff _ _).2 hdeps
      have hfind : (t :: ts).find? (readyB (ex.map Prod.fst)) = some t :=
        List.find?_cons_of_pos _ hready
      have hsome := hok t (List.mem_cons_self _ _) ex mem
      cases hr : taskResult P agents inputs sim memOn k ex mem t with
      | none => rw [hr] at hsome; exact absurd hsome (by simp)
      | some out =>
        simp only [seqLoop, hfind, hr]
        rw [List.erase_cons_head]
        have htc3 : topoConsistent ((ex ++ [(t.id, out)]).map Prod.fst) ts = true := by
          rw [topoConsistent_seen_congr ts ((ex ++ [(t.id, out)]).map Prod.fst)
            (t.id :: ex.map Prod.fst) (fun d => by simp [List.mem_cons, or_comm])]
          exact htc2
        have hrec := ih ts (ex ++ [(t.id, out)])
          (dis ++ [(t.id, taskCtx inputs sim memOn k ex mem t)])
          (if memOn then mem ++ [memEntryFor inputs t out mem] else mem)
          (by simp only [List.length_cons] at hlen; omega) htc3
          (fun u hu ex2 mem2 => hok u (List.mem_cons_of_mem _ hu) ex2 mem2)
        rw [hrec]
        simp

/-- C2: under the Sequential process the tasks become ready and run in
exactly declaration order filtered by dependency satisfaction: with a
dependency-consistent declaration order and an always-succeeding provider,
the executed order equals the declaration order; and in the concrete
two-task blog instance, research_task runs first, blog_task runs second
with the research fact list verbatim in its assembled context, and the run
result holds the two tasks Succeeded in that order. -/
theorem C2_sequential_declaration_order :
    (∀ (P : Provider) (agents : List Agent) (inputs : List (String × String))
        (sim : String → String → Nat) (memOn : Bool) (k : Nat)
        (tasks : List TaskNode),
        topoConsistent [] tasks = true →
        (∀ t ∈ tasks, ∀ ex mem,
          (taskResult P agents inputs sim memOn k ex mem t).isSome) →
        (seqLoop P agents inputs sim memOn k tasks.length tasks [] [] []).executed.map
          Prod.fst = tasks.map TaskNode.id) ∧
    ((kickoff blogCrew blogProvider idPlanner simEq 2 [("topic", "EVs")]
        []).executed.map Prod.fst = ["research_task", "blog_task"] ∧
     statusOf (kickoff blogCrew blogProvider idPlanner simEq 2 [("topic", "EVs")] [])
       "research_task" = .Succeeded ∧
     statusOf (kickoff blogCrew blogProvider idPlanner simEq 2 [("topic", "EVs")] [])
       "blog_task" = .Succeeded ∧
     (∃ ctx, ("blog_task", ctx) ∈
        (kickoff blogCrew blogProvider idPlanner simEq 2 [("topic", "EVs")]
          []).dispatched ∧
        CtxItem.depOutput "research_task"
          (.text "- EV fact one\n- EV fact two\n- EV fact three") ∈ ctx)) := by
  constructor
  · intro P agents inputs sim memOn k tasks htc hok
    exact seqLoop_decl_order P agents inputs sim memOn k tasks.length tasks [] [] []
      (le_refl _) htc hok
  · refine ⟨by decide, by decide, by decide, ?_⟩
    refine ⟨taskCtx [("topic", "EVs")] simEq true 2
      [("research_task", .text "- EV fact one\n- EV fact two\n- EV fact three")]
      [memEntryFor [("topic", "EVs")] research_task
        (.text "- EV fact one\n- EV fact two\n- EV fact three") []] blog_task,
      by decide, by decide⟩

theorem C2_sequential_declaration_order_witness :
    (seqLoop blogProvider blogCrew.agents [("topic", "EVs")] simEq true 2
      blogCrew.tasks.length blogCrew.tasks [] [] []).executed.map Prod.fst =
      blogCrew.tasks.map TaskNode.id :=
  C2_sequential_declaration_order.1 blogProvider blogCrew.agents
    [("topic", "EVs")] simEq true 2 blogCrew.tasks (by decide)
    (by
      intro t ht ex mem
      rcases List.mem_cons.1 ht with rfl | ht2
      · rfl
      · rcases List.mem_cons.1 ht2 with rfl | h3
        · rfl
        · exact absurd h3 (by simp))

/-! ## Validation retry theorems (claim C4) -/

theorem attemptLoop_all_fail (P : Provider) (t : TaskNode)
    (hfail : ∀ ctx, ∃ out sv, P t ctx = .ok out ∧ acceptOutput t out = .error sv) :
    ∀ (m : Nat) (ctx : List CtxItem),
      (attemptLoop P t m ctx).result = none ∧
      (attemptLoop P t m ctx).dispatches.length = m := by
  intro m
  induction m with
  | zero => intro ctx; exact ⟨rfl, rfl⟩
  | succ n ih =>
    intro ctx
    obtain ⟨out, sv, hP, hacc⟩ := hfail ctx
    simp only [attemptLoop, hP, hacc]
    obtain ⟨h1, h2⟩ := ih (ctx ++ [.validationError sv.field sv.reason])
    exact ⟨h1, by simp [h2]⟩

theorem attemptLoop_first_dispatch (P : Provider) (t : TaskNode) (m : Nat)
    (ctx : List CtxItem) :
    (attemptLoop P t (m + 1) ctx).dispatches.get? 0 = some ctx := by
  cases hP : P t ctx with
  | error e => simp [attemptLoop, hP]
  | ok o =>
    cases hacc : acceptOutput t o with
    | ok v => simp [attemptLoop, hP, hacc]
    | error sv => simp [attemptLoop, hP, hacc]

/-- C4: for a task with an output schema and a provider whose output always
fails validation, the task is terminally Failed after exactly the assigned
agent's max_iterations dispatches; the retry after a validation failure
re-dispatches with the validation error appended to the context; and with
no dependencies pending, the failed task carries status Failed in the run
result. -/
theorem C4_schema_retry_exhaustion (P : Provider) (agents : List Agent)
    (inputs : List (String × String)) (sim : String → String → Nat)
    (memOn : Bool) (k : Nat) (t : TaskNode) (s : StructuredSchema)
    (hschema : t.output_schema = some s)
    (hfail : ∀ ctx, ∃ out sv, P t ctx = .ok out ∧ acceptOutput t out = .error sv) :
    (∀ ex mem, taskResult P agents inputs sim memOn k ex mem t = none) ∧
    (∀ ex mem, (attemptLoop P t (maxIterOf agents t.assigned_agent)
        (taskCtx inputs sim memOn k ex mem t)).dispatches.length =
      maxIterOf agents t.assigned_agent) ∧
    (∀ (m : Nat) (ctx : List CtxItem) (out : RawOutput) (sv : SchemaViolation),
      P t ctx = .ok out → acceptOutput t out = .error sv →
      (attemptLoop P t (m + 2) ctx).dispatches.get? 1 =
        some (ctx ++ [.validationError sv.field sv.reason])) ∧
    (t.dependencies = [] → ∀ mem,
      statusOf (seqLoop P agents inputs sim memOn k 1 [t] [] [] mem) t.id =
        .Failed) := by
  have hnone : ∀ ctx, (attemptLoop P t (maxIterOf agents t.assigned_agent)
      ctx).result = none :=
    fun ctx => (attemptLoop_all_fail P t hfail _ ctx).1
  refine ⟨fun ex mem => hnone _,
          fun ex mem => (attemptLoop_all_fail P t hfail _ _).2,
          fun m ctx out sv hP hacc => ?_, fun hdeps mem => ?_⟩
  · simp only [attemptLoop, hP, hacc]
    exact attemptLoop_first_dispatch P t m (ctx ++ [.validationError sv.field sv.reason])
  · have hfind : [t].find?
        (readyB (([] : List (String × RawOutput)).map Prod.fst)) = some t := by
      apply List.find?_cons_of_pos
      rw [readyB, hdeps]
      rfl
    have htr : taskResult P agents inputs sim memOn k [] mem t = none := hnone _
    simp only [seqLoop, hfind, htr, statusOf]
    simp

theorem C4_schema_retry_exhaustion_witness :
    taskResult noTagsProvider marketingCrew.agents [] simEq false 2 [] []
      prepare_post_drafts = none :=
  (C4_schema_retry_exhaustion noTagsProvider marketingCrew.agents [] simEq false 2
      prepare_post_drafts contentSchema rfl
      (fun ctx => ⟨.structured
        [("content_type", .str "post"), ("topic", .str "excel automation"),
         ("target_audience", .str "SMEs"), ("content", .str "draft body")],
        ⟨"tags", "missing required field"⟩, rfl, rfl⟩)).1 [] []

/-! ## Terminal failure and halt theorems (claim C5) -/

/-- Under the Sequential process a terminal task failure halts the run: the
result keeps the already executed outputs, and the dispatch trace is
exactly the executed tasks followed by the failing one — no later task is
dispatched. -/
theorem seqLoop_halt (P : Provider) (agents : List Agent)
    (inputs : List (String × String)) (sim : String → String → Nat)
    (memOn : Bool) (k : Nat) :
    ∀ (fuel : Nat) (pending : List TaskNode) (ex : List (String × RawOutput))
      (dis : List (String × List CtxItem)) (mem : List MemEntry) (f : String),
      (seqLoop P agents inputs sim memOn k fuel pending ex dis mem).failed = some f →
      ∃ ne, (seqLoop P agents inputs sim memOn k fuel pending ex dis mem).executed =
          ex ++ ne ∧
        (seqLoop P agents inputs sim memOn k fuel pending ex dis mem).dispatched.map
          Prod.fst = dis.map Prod.fst ++ ne.map Prod.fst ++ [f] := by
  intro fuel
  induction fuel with
  | zero =>
    intro pending ex dis mem f h
    exact absurd h (by simp [seqLoop])
  | succ n ih =>
    intro pending ex dis mem f h
    cases hf : pending.find? (readyB (ex.map Prod.fst)) with
    | none =>
      rw [show (seqLoop P agents inputs sim memOn k (n + 1) pending ex dis mem) =
        ⟨ex, dis, none, mem, 0⟩ from by simp [seqLoop, hf]] at h
      exact absurd h (by simp)
    | some t =>
      cases hr : taskResult P agents inputs sim memOn k ex mem t with
      | some out =>
        have hstep : seqLoop P agents inputs sim memOn k (n + 1) pending ex dis mem =
            seqLoop P agents inputs sim memOn k n (pending.erase t)
              (ex ++ [(t.id, out)])
              (dis ++ [(t.id, taskCtx inputs sim memOn k ex mem t)])
              (if memOn then mem ++ [memEntryFor inputs t out mem] else mem) := by
          simp [seqLoop, hf, hr]
        rw [hstep] at h ⊢
        obtain ⟨ne, h1, h2⟩ := ih (pending.erase t) (ex ++ [(t.id, out)])
          (dis ++ [(t.id, taskCtx inputs sim memOn k ex mem t)])
          (if memOn then mem ++ [memEntryFor inputs t out mem] else mem) f h
        refine ⟨(t.id, out) :: ne, ?_, ?_⟩
        · rw [h1]; simp
        · rw [h2]; simp
      | none =>
        have hstep : seqLoop P agents inputs sim memOn k (n + 1) pending ex dis mem =
            ⟨ex, dis ++ [(t.id, taskCtx inputs sim memOn k ex mem t)],
              some t.id, mem, 0⟩ := by
          simp [seqLoop, hf, hr]
        rw [hstep] at h ⊢
        simp only [RunResult.mk.injEq] at h ⊢
        have hft : f = t.id := by
          have := h
          simp at this
          exact this.symm
        refine ⟨[], by simp, ?_⟩
        simp [hft]

/-- Under the Planned process, a run that halts on a task failure consulted
the planner exactly once for a re-route, and the result keeps the already
executed outputs. -/
theorem planLoop_halt (P : Provider)
    (planner : String → List TaskNode → List TaskNode) (agents : List Agent)
    (inputs : List (String × String)) (sim : String → String → Nat)
    (memOn : Bool) (k : Nat) :
    ∀ (fuel : Nat) (rr : Bool) (pending : List TaskNode)
      (ex : List (String × RawOutput)) (dis : List (String × List CtxItem))
      (mem : List MemEntry) (f : String),
      (planLoop P planner agents inputs sim memOn k fuel rr pending ex dis
        mem).failed = some f →
      (planLoop P planner agents inputs sim memOn k fuel rr pending ex dis
        mem).plannerCalls = 1 ∧
      ∃ ne, (planLoop P planner agents inputs sim memOn k fuel rr pending ex dis
        mem).executed = ex ++ ne := by
  intro fuel
  induction fuel with
  | zero =>
    intro rr pending ex dis mem f h
    exact absurd h (by simp [planLoop])
  | succ n ih =>
    intro rr pending ex dis mem f h
    cases hf : pending.find? (readyB (ex.map Prod.fst)) with
    | none =>
      rw [show (planLoop P planner agents inputs sim memOn k (n + 1) rr pending ex
        dis mem) = ⟨ex, dis, none, mem, if rr then 1 else 0⟩ from by
          simp [planLoop, hf]] at h
      exact absurd h (by simp)
    | some t =>
      cases hr : taskResult P agents inputs sim memOn k ex mem t with
      | some out =>
        have hstep : planLoop P planner agents inputs sim memOn k (n + 1) rr pending
            ex dis mem =
            planLoop P planner agents inputs sim memOn k n rr (pending.erase t)
              (ex ++ [(t.id, out)])
              (dis ++ [(t.id, taskCtx inputs sim memOn k ex mem t)])
              (if memOn then mem ++ [memEntryFor inputs t out mem] else mem) := by
          simp [planLoop, hf, hr]
        rw [hstep] at h ⊢
        obtain ⟨hc, ne, h1⟩ := ih rr (pending.erase t) (ex ++ [(t.id, out)])
          (dis ++ [(t.id, taskCtx inputs sim memOn k ex mem t)])
          (if memOn then mem ++ [memEntryFor inputs t out mem] else mem) f h
        exact ⟨hc, (t.id, out) :: ne, by rw [h1]; simp⟩
      | none =>
        cases rr with
        | true =>
          have hstep : planLoop P planner agents inputs sim memOn k (n + 1) true
              pending ex dis mem =
              ⟨ex, dis ++ [(t.id, taskCtx inputs sim memOn k ex mem t)],
                some t.id, mem, 1⟩ := by
            simp [planLoop, hf, hr]
          rw [hstep]
          exact ⟨rfl, [], by simp⟩
        | false =>
          cases hv : validPlan (ex.map Prod.fst) (pending.erase t)
              (planner t.id (pending.erase t)) with
          | true =>
            have hstep : planLoop P planner agents inputs sim memOn k (n + 1) false
                pending ex dis mem =
                planLoop P planner agents inputs sim memOn k n true
                  (planner t.id (pending.erase t)) ex
                  (dis ++ [(t.id, taskCtx inputs sim memOn k ex mem t)]) mem := by
              simp [planLoop, hf, hr, hv]
            rw [hstep] at h ⊢
            exact ih true (planner t.id (pending.erase t)) ex
              (dis ++ [(t.id, taskCtx inputs sim memOn k ex mem t)]) mem f h
          | false =>
            have hstep : planLoop P planner agents inputs sim memOn k (n + 1) false
                pending ex dis mem =
                ⟨ex, dis ++ [(t.id, taskCtx inputs sim memOn k ex mem t)],
                  some t.id, mem, 1⟩ := by
              simp [planLoop, hf, hr, hv]
            rw [hstep]
            exact ⟨rfl, [], by simp⟩

/-- C5: a terminal task failure halts a Sequential run with no later task
dispatched and the partial result (all completed outputs) preserved; under
the Planned process the planner is consulted exactly once for a re-route
before the same halt applies, again preserving the partial result. -/
theorem C5_failure_halts_preserving_partial :
    (∀ (P : Provider) (agents : List Agent) (inputs : List (String × String))
        (sim : String → String → Nat) (memOn : Bool) (k : Nat) (fuel : Nat)
        (pending : List TaskNode) (ex : List (String × RawOutput))
        (dis : List (String × List CtxItem)) (mem : List MemEntry) (f : String),
        (seqLoop P agents inputs sim memOn k fuel pending ex dis mem).failed =
          some f →
        ∃ ne, (seqLoop P agents inputs sim memOn k fuel pending ex dis
            mem).executed = ex ++ ne ∧
          (seqLoop P agents inputs sim memOn k fuel pending ex dis
            mem).dispatched.map Prod.fst =
            dis.map Prod.fst ++ ne.map Prod.fst ++ [f]) ∧
    (∀ (P : Provider) (planner : String → List TaskNode → List TaskNode)
        (agents : List Agent) (inputs : List (String × String))
        (sim : String → String → Nat) (memOn : Bool) (k : Nat) (fuel : Nat)
        (rr : Bool) (pending : List TaskNode) (ex : List (String × RawOutput))
        (dis : List (String × List CtxItem)) (mem : List MemEntry) (f : String),
        (planLoop P planner agents inputs sim memOn k fuel rr pending ex dis
          mem).failed = some f →
        (planLoop P planner agents inputs sim memOn k fuel rr pending ex dis
          mem).plannerCalls = 1 ∧
        ∃ ne, (planLoop P planner agents inputs sim memOn k fuel rr pending ex dis
          mem).executed = ex ++ ne) :=
  ⟨fun P agents inputs sim memOn k fuel pending ex dis mem f h =>
    seqLoop_halt P agents inputs sim memOn k fuel pending ex dis mem f h,
   fun P planner agents inputs sim memOn k fuel rr pending ex dis mem f h =>
    planLoop_halt P planner agents inputs sim memOn k fuel rr pending ex dis mem f h⟩

theorem C5_failure_halts_preserving_partial_witness :
    ∃ ne, (seqLoop failProvider blogCrew.agents [("topic", "EVs")] simEq false 2
        2 blogCrew.tasks [] [] []).executed = [] ++ ne ∧
      (seqLoop failProvider blogCrew.agents [("topic", "EVs")] simEq false 2
        2 blogCrew.tasks [] [] []).dispatched.map Prod.fst =
        ([] : List (String × List CtxItem)).map Prod.fst ++
          ne.map Prod.fst ++ ["blog_task"] :=
  C5_failure_halts_preserving_partial.1 failProvider blogCrew.agents
    [("topic", "EVs")] simEq false 2 2 blogCrew.tasks [] [] [] "blog_task"
    (by decide)

end Crew
